import Mathlib

/-!
Verification of the VTK ingestion subsystem of the 3dvisualizer repository:
vertex clustering (src/Concrete/VertexClusterer.h), numeric character-data
parsing (src/Concrete/VTKCDataParser.cpp), data-array and cell processing
(src/Concrete/VTKFileReader.cpp), merged-mesh construction
(src/Concrete/VTKFile.cpp), and the hexahedron corner permutation
(src/Concrete/UnstructuredHexahedralVTKXML.cpp).

Numeric idealization: the source's floating-point scalars (Float32 point
components, Float64/PScalar centroid accumulators) are embedded as
rationals, so arithmetic is exact; machine integers are embedded as
Nat/Int, with explicit wraparound modulo 2^64 where the source's UInt64
arithmetic can overflow.

The C++ cluster arena (`Cluster* clusters` with pointer-valued `root`
fields) is embedded as a total function from indices to cluster records;
the pointer to a cluster's root becomes the index of that cluster, and
pointer rewriting becomes a pointwise functional update.  The kd-tree
(`Geometry::ArrayKdTree`, an external Vrui library component) is not part
of this repository; its directed radius traversal visits, in some tree
order, every point within the search radius of the query point, and the
clusterer's visitor acts only on points within the radius.  The merge
phase is therefore embedded as a loop over all point pairs in index
order; every fact proved about it is independent of the visiting order.
-/

namespace VTKProof

/- Rational arithmetic must evaluate inside the kernel so that concrete
runs of the embedded algorithms can be checked by `decide`; the library
marks these operations irreducible only to keep `simp` normal forms
stable. -/
attribute [local semireducible] Rat.add Rat.mul Rat.sub Rat.inv

/-- A 3-component point (VTKFile::Point, with Float32 idealized as ℚ). -/
structure Pt where
  x : ℚ
  y : ℚ
  z : ℚ
deriving DecidableEq

instance : Inhabited Pt := ⟨⟨0, 0, 0⟩⟩

/-- Componentwise sum, as used for centroid accumulation. -/
def Pt.add (p q : Pt) : Pt := ⟨p.x + q.x, p.y + q.y, p.z + q.z⟩

/-- Componentwise division by a scalar (centroid = accumulator / weight). -/
def Pt.divBy (p : Pt) (w : ℚ) : Pt := ⟨p.x / w, p.y / w, p.z / w⟩

/-- Squared Euclidean distance (Geometry::sqrDist). -/
def sqrDist (p q : Pt) : ℚ :=
  (p.x - q.x) ^ 2 + (p.y - q.y) ^ 2 + (p.z - q.z) ^ 2

theorem sqrDist_comm (p q : Pt) : sqrDist p q = sqrDist q p := by
  simp only [sqrDist]; ring

/-- VertexClusterer::Cluster: the union-find parent reference (embedded as
the index of the parent cluster in the arena), the accumulated centroid
position and weight, and the vertex index assigned to root clusters. -/
structure Cluster where
  root : Nat
  centroidAcc : Pt
  centroidWeight : ℚ
  vertexIndex : Nat
deriving DecidableEq

/-- The cluster arena: one cluster record per original vertex index.
Indices ≥ the vertex count are never touched by the algorithm. -/
abbrev CState := Nat → Cluster

/-- The parent index of cluster `i` (the embedding of `clusters[i].root`). -/
def parentOf (cs : CState) (i : Nat) : Nat := (cs i).root

/-- A cluster is a root iff it is its own parent (`cPtr == cPtr->root`). -/
def isRoot (cs : CState) (i : Nat) : Prop := parentOf cs i = i

instance (cs : CState) (i : Nat) : Decidable (isRoot cs i) :=
  inferInstanceAs (Decidable (parentOf cs i = i))

/-- `k`-fold application of the parent reference. -/
def iterP (cs : CState) : Nat → Nat → Nat
  | 0, i => i
  | k + 1, i => iterP cs k (parentOf cs i)

/-- Root lookup with explicit fuel: the embedding of the source's
`while(root != root->root) root = root->root;` loops, which terminate
because parent chains in the arena are acyclic; fuel equal to the number
of vertices always suffices (proved below). -/
def rootOfFuel (cs : CState) : Nat → Nat → Nat
  | 0, i => i
  | f + 1, i => if parentOf cs i = i then i else rootOfFuel cs f (parentOf cs i)

/-- `i`'s parent chain ends at the root `r`. -/
inductive RootedAt (cs : CState) : Nat → Nat → Prop
  | root {r : Nat} : isRoot cs r → RootedAt cs r r
  | step {i r : Nat} : ¬isRoot cs i → RootedAt cs (parentOf cs i) r →
      RootedAt cs i r

theorem iterP_succ_out (cs : CState) (k i : Nat) :
    iterP cs (k + 1) i = parentOf cs (iterP cs k i) := by
  induction k generalizing i with
  | zero => rfl
  | succ k ih =>
    show iterP cs (k + 1) (parentOf cs i) = _
    rw [ih (parentOf cs i)]
    rfl

theorem iterP_add (cs : CState) (a b i : Nat) :
    iterP cs (a + b) i = iterP cs b (iterP cs a i) := by
  induction b with
  | zero => rfl
  | succ b ih => rw [← Nat.add_assoc, iterP_succ_out, ih, ← iterP_succ_out]

theorem iterP_of_isRoot {cs : CState} {i : Nat} (h : isRoot cs i) (k : Nat) :
    iterP cs k i = i := by
  induction k with
  | zero => rfl
  | succ k ih => rw [iterP_succ_out, ih]; exact h

/-- Once the chain reaches a root it stays there. -/
theorem iterP_absorb {cs : CState} {k i : Nat}
    (h : isRoot cs (iterP cs k i)) {m : Nat} (hm : k ≤ m) :
    iterP cs m i = iterP cs k i := by
  obtain ⟨t, rfl⟩ := Nat.exists_eq_add_of_le hm
  rw [iterP_add]
  exact iterP_of_isRoot h t

/-- Bridge between the fuel-based root lookup and the chain iteration. -/
theorem rootOfFuel_eq_iterP {cs : CState} {k f i : Nat} (hk : k ≤ f)
    (h : isRoot cs (iterP cs k i)) : rootOfFuel cs f i = iterP cs k i := by
  induction f generalizing i k with
  | zero =>
    interval_cases k
    rfl
  | succ f ih =>
    by_cases hr : isRoot cs i
    · have hp : parentOf cs i = i := hr
      rw [iterP_of_isRoot hr]
      show (if parentOf cs i = i then i else rootOfFuel cs f (parentOf cs i)) = i
      rw [if_pos hp]
    · match k with
      | 0 => exact absurd h hr
      | k + 1 =>
        have hstep : iterP cs (k + 1) i = iterP cs k (parentOf cs i) := rfl
        rw [hstep] at h
        have hne : ¬parentOf cs i = i := hr
        have hru : rootOfFuel cs (f + 1) i = rootOfFuel cs f (parentOf cs i) := by
          show (if parentOf cs i = i then i else rootOfFuel cs f (parentOf cs i)) = _
          rw [if_neg hne]
        rw [hru, hstep]
        exact ih (Nat.le_of_succ_le_succ hk) h

theorem RootedAt.isRoot_target {cs : CState} {i r : Nat}
    (h : RootedAt cs i r) : isRoot cs r := by
  induction h with
  | root hr => exact hr
  | step _ _ ih => exact ih

theorem RootedAt.unique {cs : CState} {i r s : Nat}
    (h : RootedAt cs i r) (h' : RootedAt cs i s) : r = s := by
  induction h with
  | root hr =>
    cases h' with
    | root _ => rfl
    | step hnr _ => exact absurd hr hnr
  | step hnr _ ih =>
    cases h' with
    | root hr => exact absurd hr hnr
    | step _ h₂ => exact ih h₂

theorem RootedAt.iff_iterP {cs : CState} {i r : Nat} :
    RootedAt cs i r ↔ ∃ k, iterP cs k i = r ∧ isRoot cs r := by
  constructor
  · intro h
    induction h with
    | root hr => exact ⟨0, rfl, hr⟩
    | step _ _ ih =>
      obtain ⟨k, hk, hr⟩ := ih
      exact ⟨k + 1, hk, hr⟩
  · rintro ⟨k, hk, hr⟩
    induction k generalizing i with
    | zero => cases hk; exact RootedAt.root hr
    | succ k ih =>
      by_cases hri : isRoot cs i
      · rw [iterP_of_isRoot hri] at hk
        cases hk
        exact RootedAt.root hr
      · exact RootedAt.step hri (ih hk)

/-- Nodes further along a rooted chain share the root. -/
theorem RootedAt.iterP_chain {cs : CState} {i r : Nat}
    (h : RootedAt cs i r) (t : Nat) : RootedAt cs (iterP cs t i) r := by
  rcases RootedAt.iff_iterP.mp h with ⟨k, hk, hr⟩
  rcases Nat.le_total t k with ht | ht
  · obtain ⟨m, rfl⟩ := Nat.exists_eq_add_of_le ht
    refine RootedAt.iff_iterP.mpr ⟨m, ?_, hr⟩
    rw [← iterP_add]
    exact hk
  · refine RootedAt.iff_iterP.mpr ⟨0, ?_, hr⟩
    have := iterP_absorb (k := k) (by rw [hk]; exact hr) ht
    rw [hk] at this
    simpa [iterP] using this

/-- A non-root node never reappears on its own strict parent chain
(rooted chains are cycle-free). -/
theorem RootedAt.no_cycle {cs : CState} {i r : Nat}
    (h : RootedAt cs i r) : ∀ t, 1 ≤ t → iterP cs t i = i → isRoot cs i := by
  induction h with
  | root hr => intro t _ _; exact hr
  | @step i r hnr _ ih =>
    intro t ht hcyc
    match t, ht with
    | t + 1, _ =>
      have hP : iterP cs (t + 1) (parentOf cs i) = parentOf cs i := by
        have h1 : iterP cs t (parentOf cs i) = i := hcyc
        rw [iterP_succ_out, h1]
      rcases Nat.eq_zero_or_pos t with rfl | htpos
      · exact absurd hcyc hnr
      · have hroot : isRoot cs (parentOf cs i) := ih (t + 1) (Nat.le_add_left 1 t) hP
        have habs : iterP cs t (parentOf cs i) = parentOf cs i :=
          iterP_of_isRoot hroot t
        have hcyc' : iterP cs t (parentOf cs i) = i := hcyc
        show parentOf cs i = i
        exact habs.symm.trans hcyc'

/-- Parent indices stay inside the arena of `n` clusters. -/
def InRange (cs : CState) (n : Nat) : Prop := ∀ i, i < n → parentOf cs i < n

theorem iterP_lt {cs : CState} {n : Nat} (h : InRange cs n) {i : Nat}
    (hi : i < n) (t : Nat) : iterP cs t i < n := by
  induction t generalizing i with
  | zero => exact hi
  | succ t ih => exact ih (h i hi)

/-- If a chain reaches a root at all, it reaches it within `n` steps
(pigeonhole over the `n` arena indices). -/
theorem chain_bound {cs : CState} {n : Nat} (hr : InRange cs n) {i : Nat}
    (hi : i < n) (hex : ∃ k, isRoot cs (iterP cs k i)) :
    isRoot cs (iterP cs n i) := by
  classical
  have hk0 : isRoot cs (iterP cs (Nat.find hex) i) := Nat.find_spec hex
  by_cases hle : Nat.find hex ≤ n
  · rw [iterP_absorb hk0 hle]; exact hk0
  · push_neg at hle
    exfalso
    have hinj2 : ∀ t s, t < s → s ≤ n → iterP cs t i ≠ iterP cs s i := by
      intro t s hts hsn heq
      have hslt : s < Nat.find hex := lt_of_le_of_lt hsn hle
      have hm : iterP cs (t + (Nat.find hex - s)) i = iterP cs (Nat.find hex) i := by
        rw [iterP_add, heq, ← iterP_add, Nat.add_sub_cancel' (le_of_lt hslt)]
      have hlt : t + (Nat.find hex - s) < Nat.find hex := by omega
      exact Nat.find_min hex hlt (by rw [hm]; exact hk0)
    have hf : Function.Injective
        (fun t : Fin (n + 1) => (⟨iterP cs t.val i, iterP_lt hr hi t.val⟩ : Fin n)) := by
      intro t s hts
      have hv : iterP cs t.val i = iterP cs s.val i := congrArg Fin.val hts
      rcases lt_trichotomy t.val s.val with hlt | heq | hgt
      · exact absurd hv (hinj2 t.val s.val hlt (Nat.le_of_lt_succ s.isLt))
      · exact Fin.ext heq
      · exact absurd hv.symm (hinj2 s.val t.val hgt (Nat.le_of_lt_succ t.isLt))
    have := Fintype.card_le_of_injective _ hf
    simp only [Fintype.card_fin] at this
    omega

/-- Well-formedness of the cluster arena over `n` vertices: parent indices
stay in range and every parent chain reaches a root. -/
structure WF (cs : CState) (n : Nat) : Prop where
  inRange : InRange cs n
  rooted : ∀ i, i < n → ∃ r, RootedAt cs i r

/-- The root lookup used throughout the clusterer, the embedding of the
source's `while(root != root->root) root = root->root;` loops; under `WF`
fuel `n` always suffices. -/
def rootOf (cs : CState) (n i : Nat) : Nat := rootOfFuel cs n i

theorem rootedAt_rootOf {cs : CState} {n i : Nat} (h : WF cs n) (hi : i < n) :
    RootedAt cs i (rootOf cs n i) := by
  obtain ⟨r, hr⟩ := h.rooted i hi
  obtain ⟨k, hk, hkr⟩ := RootedAt.iff_iterP.mp hr
  have hex : ∃ k, isRoot cs (iterP cs k i) := ⟨k, by rw [hk]; exact hkr⟩
  have hn : isRoot cs (iterP cs n i) := chain_bound h.inRange hi hex
  have hfe : rootOf cs n i = iterP cs n i :=
    rootOfFuel_eq_iterP (le_refl n) hn
  have hreq : r = iterP cs n i := by
    rcases Nat.le_total k n with hkn | hnk
    · rw [iterP_absorb (by rw [hk]; exact hkr) hkn, hk]
    · rw [← hk, iterP_absorb hn hnk]
  rw [hfe, ← hreq]
  exact hr

theorem rootOf_eq_of_rootedAt {cs : CState} {n i r : Nat} (h : WF cs n)
    (hi : i < n) (hr : RootedAt cs i r) : rootOf cs n i = r :=
  RootedAt.unique (rootedAt_rootOf h hi) hr

theorem rootOf_isRoot {cs : CState} {n i : Nat} (h : WF cs n) (hi : i < n) :
    isRoot cs (rootOf cs n i) :=
  (rootedAt_rootOf h hi).isRoot_target

theorem rootOf_lt {cs : CState} {n i : Nat} (h : WF cs n) (hi : i < n) :
    rootOf cs n i < n := by
  obtain ⟨k, hk, _⟩ := RootedAt.iff_iterP.mp (rootedAt_rootOf h hi)
  rw [← hk]
  exact iterP_lt h.inRange hi k

theorem rootOf_of_isRoot {cs : CState} {n i : Nat} (h : WF cs n) (hi : i < n)
    (hr : isRoot cs i) : rootOf cs n i = i :=
  rootOf_eq_of_rootedAt h hi (RootedAt.root hr)

/-- The root of any node on `i`'s chain agrees with `i`'s root. -/
theorem rootOf_parentOf {cs : CState} {n i : Nat} (h : WF cs n) (hi : i < n) :
    rootOf cs n (parentOf cs i) = rootOf cs n i := by
  by_cases hr : isRoot cs i
  · rw [hr]
  · obtain ⟨r, hrr⟩ := h.rooted i hi
    have hpr : RootedAt cs (parentOf cs i) r := by
      cases hrr with
      | root hroot => exact absurd hroot hr
      | step _ hp => exact hp
    rw [rootOf_eq_of_rootedAt h (h.inRange i hi) hpr,
      rootOf_eq_of_rootedAt h hi hrr]

/-! ### State updates (pointer writes through the cluster arena) -/

/-- Pointwise update of one cluster record (a write through a `Cluster*`). -/
def setCluster (cs : CState) (i : Nat) (c : Cluster) : CState :=
  Function.update cs i c

/-- `x->root = r`: the parent-pointer rewrite. -/
def setParent (cs : CState) (x r : Nat) : CState :=
  setCluster cs x { cs x with root := r }

/-- `root->centroidAcc[i] += otherRoot->centroidAcc[i];
root->centroidWeight += otherRoot->centroidWeight;` of the merge step. -/
def addAcc (cs : CState) (r o : Nat) : CState :=
  setCluster cs r { cs r with
    centroidAcc := Pt.add (cs r).centroidAcc (cs o).centroidAcc
    centroidWeight := (cs r).centroidWeight + (cs o).centroidWeight }

/-- `cPtr->vertexIndex = numClusters;` of the index-assignment pass. -/
def setVertexIndex (cs : CState) (i k : Nat) : CState :=
  setCluster cs i { cs i with vertexIndex := k }

theorem parentOf_setParent_self (cs : CState) (x r : Nat) :
    parentOf (setParent cs x r) x = r := by
  simp [parentOf, setParent, setCluster]

theorem parentOf_setParent_other (cs : CState) {x y : Nat} (r : Nat)
    (h : y ≠ x) : parentOf (setParent cs x r) y = parentOf cs y := by
  simp [parentOf, setParent, setCluster, Function.update_noteq h]

theorem parentOf_addAcc (cs : CState) (r o y : Nat) :
    parentOf (addAcc cs r o) y = parentOf cs y := by
  by_cases h : y = r
  · subst h; simp [parentOf, addAcc, setCluster]
  · simp [parentOf, addAcc, setCluster, Function.update_noteq h]

theorem parentOf_setVertexIndex (cs : CState) (i k y : Nat) :
    parentOf (setVertexIndex cs i k) y = parentOf cs y := by
  by_cases h : y = i
  · subst h; simp [parentOf, setVertexIndex, setCluster]
  · simp [parentOf, setVertexIndex, setCluster, Function.update_noteq h]

theorem centroid_setParent (cs : CState) (x r y : Nat) :
    (setParent cs x r y).centroidAcc = (cs y).centroidAcc ∧
      (setParent cs x r y).centroidWeight = (cs y).centroidWeight := by
  by_cases h : y = x
  · subst h; simp [setParent, setCluster]
  · simp [setParent, setCluster, Function.update_noteq h]

theorem centroid_setVertexIndex (cs : CState) (i k y : Nat) :
    (setVertexIndex cs i k y).centroidAcc = (cs y).centroidAcc ∧
      (setVertexIndex cs i k y).centroidWeight = (cs y).centroidWeight := by
  by_cases h : y = i
  · subst h; simp [setVertexIndex, setCluster]
  · simp [setVertexIndex, setCluster, Function.update_noteq h]

theorem setParent_self {cs : CState} {x : Nat} :
    setParent cs x (parentOf cs x) = cs := by
  funext y
  by_cases h : y = x
  · subst h; simp [setParent, setCluster, parentOf]
  · simp [setParent, setCluster, Function.update_noteq h]

/-- `b`'s parent chain never passes through `x`. -/
def Avoids (cs : CState) (b x : Nat) : Prop := ∀ t, iterP cs t b ≠ x

/-- A rooted chain that avoids the rewritten node survives the rewrite. -/
theorem RootedAt.frame {cs : CState} {x y b ρ : Nat}
    (h : RootedAt cs b ρ) (hav : Avoids cs b x) :
    RootedAt (setParent cs x y) b ρ := by
  induction h with
  | @root r hr =>
    have hbx : r ≠ x := hav 0
    exact RootedAt.root (by
      show parentOf (setParent cs x y) r = r
      rw [parentOf_setParent_other cs y hbx]; exact hr)
  | @step i r hnr _ ih =>
    have hbx : i ≠ x := hav 0
    have hpav : Avoids cs (parentOf cs i) x := fun t => hav (t + 1)
    have hp := parentOf_setParent_other cs y hbx (x := x)
    exact RootedAt.step (by
        show ¬parentOf (setParent cs x y) i = i
        rw [hp]; exact hnr)
      (by rw [hp]; exact ih hpav)

/-- Linking a root `or` under another root `r` (the merge write
`otherRoot->root = root`) maps every old root assignment through
`fun ρ => if ρ = or then r else ρ`. -/
theorem RootedAt.link {cs : CState} {or r : Nat}
    (hor : isRoot cs or) (hr : isRoot cs r) {a ρ : Nat}
    (h : RootedAt cs a ρ) :
    RootedAt (setParent cs or r) a (if ρ = or then r else ρ) := by
  induction h with
  | @root s hs =>
    by_cases hso : s = or
    · subst hso
      simp only [if_pos rfl]
      by_cases hrs : r = s
      · subst hrs
        exact RootedAt.root (by
          show parentOf (setParent cs r r) r = r
          rw [parentOf_setParent_self])
      · refine RootedAt.step ?_ ?_
        · show ¬parentOf (setParent cs s r) s = s
          rw [parentOf_setParent_self]; exact hrs
        · rw [parentOf_setParent_self]
          exact RootedAt.root (by
            show parentOf (setParent cs s r) r = r
            rw [parentOf_setParent_other cs r hrs]; exact hr)
    · rw [if_neg hso]
      exact RootedAt.root (by
        show parentOf (setParent cs or r) s = s
        rw [parentOf_setParent_other cs r hso]; exact hs)
  | @step i s hnr _ ih =>
    have hio : i ≠ or := by
      intro hc; subst hc; exact hnr hor
    have hp := parentOf_setParent_other cs r hio (x := or)
    exact RootedAt.step (by
        show ¬parentOf (setParent cs or r) i = i
        rw [hp]; exact hnr)
      (by rw [hp]; exact ih)

/-- Rewriting a non-root node's parent to a node strictly further along
its own chain (covers both compression writes of the merge visitor and
the grandparent stepping of the finalization pass) preserves every root
assignment. -/
theorem RootedAt.retarget {cs : CState} {x y ρx : Nat}
    (hnx : ¬isRoot cs x) (hx : RootedAt cs x ρx)
    {t : Nat} (ht : 1 ≤ t) (hy : iterP cs t x = y) {a ρ : Nat}
    (h : RootedAt cs a ρ) : RootedAt (setParent cs x y) a ρ := by
  have hyx : y ≠ x := by
    intro hc; subst hc
    exact hnx (hx.no_cycle t ht hy)
  have hyρ : RootedAt cs y ρx := by
    have := hx.iterP_chain t
    rwa [hy] at this
  have hyav : Avoids cs y x := by
    intro s hc
    apply hnx
    refine hx.no_cycle (t + s) (le_trans ht (Nat.le_add_right t s)) ?_
    rw [iterP_add, hy, hc]
  have hy' : RootedAt (setParent cs x y) y ρx := hyρ.frame hyav
  induction h with
  | @root s hs =>
    have hsx : s ≠ x := by
      intro hc; subst hc; exact hnx hs
    exact RootedAt.root (by
      show parentOf (setParent cs x y) s = s
      rw [parentOf_setParent_other cs y hsx]; exact hs)
  | @step i s hnr hpr ih =>
    by_cases hix : i = x
    · subst hix
      have hsρ : s = ρx := RootedAt.unique (RootedAt.step hnr hpr) hx
      subst hsρ
      refine RootedAt.step ?_ ?_
      · show ¬parentOf (setParent cs i y) i = i
        rw [parentOf_setParent_self]; exact hyx
      · rw [parentOf_setParent_self]
        exact hy'
    · have hp := parentOf_setParent_other cs y hix (x := x)
      exact RootedAt.step (by
          show ¬parentOf (setParent cs x y) i = i
          rw [hp]; exact hnr)
        (by rw [hp]; exact ih)

theorem rootOf_eq_iterP {cs : CState} {n i : Nat} (h : WF cs n) (hi : i < n) :
    rootOf cs n i = iterP cs n i := by
  obtain ⟨r, hr⟩ := h.rooted i hi
  obtain ⟨k, hk, hkr⟩ := RootedAt.iff_iterP.mp hr
  exact rootOfFuel_eq_iterP (le_refl n)
    (chain_bound h.inRange hi ⟨k, by rw [hk]; exact hkr⟩)

/-- WF and root assignments after the merge write `otherRoot->root = root`. -/
theorem link_spec {cs : CState} {n or r : Nat} (h : WF cs n)
    (hor : or < n) (hrn : r < n) (hro : isRoot cs or) (hrr : isRoot cs r) :
    WF (setParent cs or r) n ∧
      ∀ a, a < n → rootOf (setParent cs or r) n a =
        if rootOf cs n a = or then r else rootOf cs n a := by
  have hwf : WF (setParent cs or r) n := by
    refine ⟨?_, ?_⟩
    · intro i hi
      by_cases hio : i = or
      · subst hio; rw [parentOf_setParent_self]; exact hrn
      · rw [parentOf_setParent_other cs r hio]; exact h.inRange i hi
    · intro i hi
      obtain ⟨ρ, hρ⟩ := h.rooted i hi
      exact ⟨_, hρ.link hro hrr⟩
  refine ⟨hwf, fun a ha => ?_⟩
  exact rootOf_eq_of_rootedAt hwf ha ((rootedAt_rootOf h ha).link hro hrr)

/-- WF preservation and root-assignment invariance for a compression write
`x->root = rootOf x`. -/
theorem compress_spec {cs : CState} {n x : Nat} (h : WF cs n) (hx : x < n) :
    WF (setParent cs x (rootOf cs n x)) n ∧
      ∀ a, a < n → rootOf (setParent cs x (rootOf cs n x)) n a = rootOf cs n a := by
  by_cases hr : isRoot cs x
  · rw [rootOf_of_isRoot h hx hr]
    have hxx : setParent cs x x = cs := by
      have hss := @setParent_self cs x
      have hpp : parentOf cs x = x := hr
      rwa [hpp] at hss
    rw [hxx]
    exact ⟨h, fun a _ => rfl⟩
  · have hn1 : 1 ≤ n := Nat.one_le_iff_ne_zero.mpr (by
      intro hc; subst hc; exact Nat.not_lt_zero x hx)
    have hit : iterP cs n x = rootOf cs n x := (rootOf_eq_iterP h hx).symm
    have hra : RootedAt cs x (rootOf cs n x) := rootedAt_rootOf h hx
    have hwf : WF (setParent cs x (rootOf cs n x)) n := by
      refine ⟨?_, ?_⟩
      · intro i hi
        by_cases hix : i = x
        · subst hix; rw [parentOf_setParent_self]; exact rootOf_lt h hx
        · rw [parentOf_setParent_other cs _ hix]; exact h.inRange i hi
      · intro i hi
        obtain ⟨ρ, hρ⟩ := h.rooted i hi
        exact ⟨ρ, RootedAt.retarget hr hra hn1 hit hρ⟩
    refine ⟨hwf, fun a ha => ?_⟩
    exact rootOf_eq_of_rootedAt hwf ha
      (RootedAt.retarget hr hra hn1 hit (rootedAt_rootOf h ha))

/-! ### The clustering algorithm (VertexClusterer) -/

/-- Point of original index `i` (the kd-tree stores each point with its
original index as its value). -/
def ptAt (pts : List Pt) (i : Nat) : Pt := pts.getD i default

/-- Initial arena built by the VertexClusterer constructor: every vertex
is a singleton root cluster whose centroid accumulator is its own
position with weight 1.  (`vertexIndex` is uninitialized in the source
until the assignment pass; it is never read before then, so it is
embedded as 0.) -/
def initClusters (pts : List Pt) : CState := fun i =>
  { root := i, centroidAcc := ptAt pts i, centroidWeight := 1, vertexIndex := 0 }

/-- The merge visitor body (VertexClusterer::operator()) for query vertex
`i` and a visited vertex `j` within the search radius: find both roots;
if they differ, fold the other root's accumulator and weight into the
query root and relink the other root under it; then short-circuit both
original clusters directly to the root. -/
def processPair (cs : CState) (n i j : Nat) : CState :=
  setParent (setParent
    (if rootOf cs n j ≠ rootOf cs n i then
      setParent (addAcc cs (rootOf cs n i) (rootOf cs n j))
        (rootOf cs n j) (rootOf cs n i)
    else cs) i (rootOf cs n i)) j (rootOf cs n i)

/-- One directed kd-tree traversal (`vertices.traverseTreeDirected`) for
query vertex `i`: the visitor acts on exactly the vertices within the
search radius; the traversal is embedded in index order (all proved facts
are independent of the visiting order). -/
def visitAll (pts : List Pt) (tol2 : ℚ) (cs : CState) (i : Nat) :
    List Nat → CState
  | [] => cs
  | j :: js =>
      visitAll pts tol2
        (if sqrDist (ptAt pts j) (ptAt pts i) ≤ tol2 then
          processPair cs pts.length i j
        else cs) i js

/-- The merge loop of createClusters: one directed traversal per vertex. -/
def mergePhase (pts : List Pt) (tol2 : ℚ) (cs : CState) : List Nat → CState
  | [] => cs
  | i :: rest => mergePhase pts tol2 (visitAll pts tol2 cs i (List.range pts.length)) rest

/-- Arena state after the merge loop of `createClusters maxDist`, with
`tol2 = maxDist²`. -/
def mergedState (pts : List Pt) (tol2 : ℚ) : CState :=
  mergePhase pts tol2 (initClusters pts) (List.range pts.length)

/-- Single-linkage connectivity: `i` and `j` are linked when some chain of
points with consecutive squared pairwise distances ≤ `tol2` connects them. -/
inductive Linked (pts : List Pt) (tol2 : ℚ) : Nat → Nat → Prop
  | refl {i : Nat} : i < pts.length → Linked pts tol2 i i
  | tail {i j k : Nat} : Linked pts tol2 i j → k < pts.length →
      sqrDist (ptAt pts j) (ptAt pts k) ≤ tol2 → Linked pts tol2 i k

theorem Linked.lt_left {pts : List Pt} {tol2 : ℚ} {i j : Nat}
    (h : Linked pts tol2 i j) : i < pts.length := by
  induction h with
  | refl h => exact h
  | tail _ _ _ ih => exact ih

theorem Linked.lt_right {pts : List Pt} {tol2 : ℚ} {i j : Nat}
    (h : Linked pts tol2 i j) : j < pts.length := by
  cases h with
  | refl h => exact h
  | tail _ hk _ => exact hk

theorem Linked.trans {pts : List Pt} {tol2 : ℚ} {i j k : Nat}
    (h : Linked pts tol2 i j) (h' : Linked pts tol2 j k) :
    Linked pts tol2 i k := by
  induction h' with
  | refl _ => exact h
  | tail _ hk he ih => exact Linked.tail ih hk he

theorem Linked.symm {pts : List Pt} {tol2 : ℚ} {i j : Nat}
    (h : Linked pts tol2 i j) : Linked pts tol2 j i := by
  induction h with
  | refl h => exact Linked.refl h
  | @tail i j k hk he ih =>
    refine Linked.trans ?_ ih
    refine Linked.tail (Linked.refl hk) ih.lt_left ?_
    rw [sqrDist_comm]
    exact he

theorem Linked.single {pts : List Pt} {tol2 : ℚ} {i j : Nat}
    (hi : i < pts.length) (hj : j < pts.length)
    (he : sqrDist (ptAt pts i) (ptAt pts j) ≤ tol2) : Linked pts tol2 i j :=
  Linked.tail (Linked.refl hi) hj he

/-! ### Congruence: states with identical parent functions share all
union-find observables. -/

theorem iterP_congr {cs cs' : CState}
    (h : ∀ y, parentOf cs' y = parentOf cs y) (k i : Nat) :
    iterP cs' k i = iterP cs k i := by
  induction k generalizing i with
  | zero => rfl
  | succ k ih =>
    show iterP cs' k (parentOf cs' i) = iterP cs k (parentOf cs i)
    rw [h i, ih]

theorem rootOfFuel_congr {cs cs' : CState}
    (h : ∀ y, parentOf cs' y = parentOf cs y) (f i : Nat) :
    rootOfFuel cs' f i = rootOfFuel cs f i := by
  induction f generalizing i with
  | zero => rfl
  | succ f ih =>
    show (if parentOf cs' i = i then i else rootOfFuel cs' f (parentOf cs' i)) =
      (if parentOf cs i = i then i else rootOfFuel cs f (parentOf cs i))
    rw [h i, ih]

theorem isRoot_congr {cs cs' : CState}
    (h : ∀ y, parentOf cs' y = parentOf cs y) (i : Nat) :
    isRoot cs' i ↔ isRoot cs i := by
  unfold isRoot
  rw [h i]

theorem WF_congr {cs cs' : CState}
    (h : ∀ y, parentOf cs' y = parentOf cs y) {n : Nat} (hw : WF cs n) :
    WF cs' n := by
  refine ⟨fun i hi => ?_, fun i hi => ?_⟩
  · rw [h i]; exact hw.inRange i hi
  · obtain ⟨r, hr⟩ := hw.rooted i hi
    obtain ⟨k, hk, hkr⟩ := RootedAt.iff_iterP.mp hr
    refine ⟨r, RootedAt.iff_iterP.mpr ⟨k, ?_, ?_⟩⟩
    · rw [iterP_congr h]; exact hk
    · rw [isRoot_congr h]; exact hkr

theorem rootOf_congr {cs cs' : CState}
    (h : ∀ y, parentOf cs' y = parentOf cs y) (n i : Nat) :
    rootOf cs' n i = rootOf cs n i :=
  rootOfFuel_congr h n i

theorem compress_isRoot {cs : CState} {n x : Nat} (h : WF cs n) (hx : x < n)
    (y : Nat) : isRoot (setParent cs x (rootOf cs n x)) y ↔ isRoot cs y := by
  by_cases hyx : y = x
  · subst hyx
    by_cases hr : isRoot cs y
    · rw [rootOf_of_isRoot h hx hr]
      unfold isRoot
      rw [parentOf_setParent_self]
      exact iff_of_true rfl hr
    · have hne : rootOf cs n y ≠ y := by
        intro hc
        exact hr (hc ▸ rootOf_isRoot h hx)
      unfold isRoot
      rw [parentOf_setParent_self]
      exact iff_of_false hne hr
  · unfold isRoot
    rw [parentOf_setParent_other cs _ hyx]

/-- Full specification of the merge visitor body: well-formedness is
preserved, the root assignment factors through
`fun ρ => if ρ = rootOf j then rootOf i else ρ`, and exactly the other
root (when distinct) stops being a root. -/
theorem processPair_spec {cs : CState} {n i j : Nat} (h : WF cs n)
    (hi : i < n) (hj : j < n) :
    WF (processPair cs n i j) n ∧
      (∀ a, a < n → rootOf (processPair cs n i j) n a =
        if rootOf cs n a = rootOf cs n j then rootOf cs n i
        else rootOf cs n a) ∧
      (∀ y, isRoot (processPair cs n i j) y ↔
        (isRoot cs y ∧ (rootOf cs n j = rootOf cs n i ∨ y ≠ rootOf cs n j))) := by
  by_cases heq : rootOf cs n j = rootOf cs n i
  · -- Same root: no merge, only the two compression writes.
    have hpp : processPair cs n i j =
        setParent (setParent cs i (rootOf cs n i)) j (rootOf cs n i) := by
      unfold processPair
      rw [if_neg (not_not_intro heq)]
    obtain ⟨hwf2, hro2⟩ := compress_spec h hi
    have hjr : rootOf cs n i = rootOf (setParent cs i (rootOf cs n i)) n j := by
      rw [hro2 j hj, heq]
    obtain ⟨hwf3, hro3⟩ := by
      have := compress_spec hwf2 hj
      rwa [← hjr] at this
    rw [hpp]
    refine ⟨hwf3, fun a ha => ?_, fun y => ?_⟩
    · rw [hro3 a ha, hro2 a ha]
      by_cases hc : rootOf cs n a = rootOf cs n j
      · rw [if_pos hc, hc, heq]
      · rw [if_neg hc]
    · have h2 := compress_isRoot h hi y
      have h3 := by
        have := compress_isRoot hwf2 hj y
        rwa [← hjr] at this
      rw [h3, h2]
      exact (iff_of_eq (by rw [and_iff_left (Or.inl heq)])).symm
  · -- Distinct roots: accumulate, relink, then compress both.
    have hacc : ∀ y, parentOf (addAcc cs (rootOf cs n i) (rootOf cs n j)) y =
        parentOf cs y := fun y => parentOf_addAcc cs _ _ y
    have hwfa : WF (addAcc cs (rootOf cs n i) (rootOf cs n j)) n := WF_congr hacc h
    have hroa : ∀ a, rootOf (addAcc cs (rootOf cs n i) (rootOf cs n j)) n a =
        rootOf cs n a := fun a => rootOf_congr hacc n a
    have hira : ∀ y, isRoot (addAcc cs (rootOf cs n i) (rootOf cs n j)) y ↔
        isRoot cs y := fun y => isRoot_congr hacc y
    obtain ⟨hwf1, hro1⟩ := link_spec hwfa (rootOf_lt h hj) (rootOf_lt h hi)
      ((hira _).mpr (rootOf_isRoot h hj)) ((hira _).mpr (rootOf_isRoot h hi))
    have hro1' : ∀ a, a < n →
        rootOf (setParent (addAcc cs (rootOf cs n i) (rootOf cs n j))
          (rootOf cs n j) (rootOf cs n i)) n a =
        if rootOf cs n a = rootOf cs n j then rootOf cs n i
        else rootOf cs n a := by
      intro a ha
      rw [hro1 a ha, hroa a]
    have hpp : processPair cs n i j =
        setParent (setParent (setParent (addAcc cs (rootOf cs n i) (rootOf cs n j))
          (rootOf cs n j) (rootOf cs n i)) i (rootOf cs n i)) j (rootOf cs n i) := by
      unfold processPair
      rw [if_pos heq]
    have hir : rootOf cs n i = rootOf (setParent (addAcc cs (rootOf cs n i)
        (rootOf cs n j)) (rootOf cs n j) (rootOf cs n i)) n i := by
      rw [hro1' i hi]
      by_cases hc : rootOf cs n i = rootOf cs n j
      · exact absurd hc.symm heq
      · rw [if_neg hc]
    obtain ⟨hwf2, hro2⟩ := by
      have := compress_spec hwf1 hi
      rwa [← hir] at this
    have hjr : rootOf cs n i = rootOf (setParent (setParent (addAcc cs
        (rootOf cs n i) (rootOf cs n j)) (rootOf cs n j) (rootOf cs n i))
        i (rootOf cs n i)) n j := by
      rw [hro2 j hj, hro1' j hj, if_pos rfl]
    obtain ⟨hwf3, hro3⟩ := by
      have := compress_spec hwf2 hj
      rwa [← hjr] at this
    rw [hpp]
    refine ⟨hwf3, fun a ha => ?_, fun y => ?_⟩
    · rw [hro3 a ha, hro2 a ha, hro1' a ha]
    · have h3 := by
        have := compress_isRoot hwf2 hj y
        rwa [← hjr] at this
      have h2 := by
        have := compress_isRoot hwf1 hi y
        rwa [← hir] at this
      rw [h3, h2]
      constructor
      · intro h1
        by_cases hyo : y = rootOf cs n j
        · subst hyo
          exfalso
          have hnr : ¬isRoot (setParent (addAcc cs (rootOf cs n i) (rootOf cs n j))
              (rootOf cs n j) (rootOf cs n i)) (rootOf cs n j) := by
            unfold isRoot
            rw [parentOf_setParent_self]
            intro hc
            exact heq hc.symm
          exact hnr h1
        · have : isRoot cs y := by
            have := isRoot_congr hacc y
            rw [← this]
            unfold isRoot at h1 ⊢
            rwa [parentOf_setParent_other _ _ hyo] at h1
          exact ⟨this, Or.inr hyo⟩
      · rintro ⟨hry, hor⟩
        have hyo : y ≠ rootOf cs n j := by
          rcases hor with hc | hc
          · exact absurd hc heq
          · exact hc
        unfold isRoot
        rw [parentOf_setParent_other _ _ hyo, hacc y]
        exact hry

/-! ### Centroid bookkeeping -/

theorem addAcc_fields (cs : CState) (r o y : Nat) :
    ((addAcc cs r o) y).centroidAcc =
      (if y = r then Pt.add (cs y).centroidAcc (cs o).centroidAcc
       else (cs y).centroidAcc) ∧
    ((addAcc cs r o) y).centroidWeight =
      (if y = r then (cs y).centroidWeight + (cs o).centroidWeight
       else (cs y).centroidWeight) := by
  by_cases h : y = r
  · subst h; simp [addAcc, setCluster]
  · simp [addAcc, setCluster, Function.update_noteq h, h]

theorem processPair_fields (cs : CState) (n i j y : Nat) :
    ((processPair cs n i j) y).centroidAcc =
      (if rootOf cs n j ≠ rootOf cs n i ∧ y = rootOf cs n i then
        Pt.add (cs y).centroidAcc (cs (rootOf cs n j)).centroidAcc
       else (cs y).centroidAcc) ∧
    ((processPair cs n i j) y).centroidWeight =
      (if rootOf cs n j ≠ rootOf cs n i ∧ y = rootOf cs n i then
        (cs y).centroidWeight + (cs (rootOf cs n j)).centroidWeight
       else (cs y).centroidWeight) := by
  unfold processPair
  obtain ⟨ha3, hw3⟩ := centroid_setParent (setParent
    (if rootOf cs n j ≠ rootOf cs n i then
      setParent (addAcc cs (rootOf cs n i) (rootOf cs n j))
        (rootOf cs n j) (rootOf cs n i)
    else cs) i (rootOf cs n i)) j (rootOf cs n i) y
  rw [ha3, hw3]
  obtain ⟨ha2, hw2⟩ := centroid_setParent
    (if rootOf cs n j ≠ rootOf cs n i then
      setParent (addAcc cs (rootOf cs n i) (rootOf cs n j))
        (rootOf cs n j) (rootOf cs n i)
    else cs) i (rootOf cs n i) y
  rw [ha2, hw2]
  by_cases hne : rootOf cs n j ≠ rootOf cs n i
  · rw [if_pos hne]
    obtain ⟨ha1, hw1⟩ := centroid_setParent
      (addAcc cs (rootOf cs n i) (rootOf cs n j)) (rootOf cs n j)
      (rootOf cs n i) y
    rw [ha1, hw1]
    obtain ⟨ha0, hw0⟩ := addAcc_fields cs (rootOf cs n i) (rootOf cs n j) y
    rw [ha0, hw0]
    by_cases hy : y = rootOf cs n i
    · refine ⟨?_, ?_⟩ <;> rw [if_pos hy, if_pos ⟨hne, hy⟩]
    · have hny : ¬(rootOf cs n j ≠ rootOf cs n i ∧ y = rootOf cs n i) := by
        rintro ⟨_, hc⟩; exact hy hc
      refine ⟨?_, ?_⟩ <;> rw [if_neg hy, if_neg hny]
  · have hnc : ¬(rootOf cs n j ≠ rootOf cs n i ∧ y = rootOf cs n i) := by
      rintro ⟨hc, _⟩; exact hne hc
    rw [if_neg hne]
    refine ⟨?_, ?_⟩ <;> rw [if_neg hnc]

/-- The members of root `ρ`: original vertex indices whose chain leads to `ρ`. -/
def memberSet (pts : List Pt) (cs : CState) (ρ : Nat) : Finset Nat :=
  (Finset.range pts.length).filter (fun a => rootOf cs pts.length a = ρ)

/-- Centroid bookkeeping invariant: every root cluster's accumulator holds
the componentwise sum of its members' positions, and its weight their
count. -/
def CentroidInv (pts : List Pt) (cs : CState) : Prop :=
  ∀ ρ, ρ < pts.length → isRoot cs ρ →
    (cs ρ).centroidAcc.x = ∑ a in memberSet pts cs ρ, (ptAt pts a).x ∧
    (cs ρ).centroidAcc.y = ∑ a in memberSet pts cs ρ, (ptAt pts a).y ∧
    (cs ρ).centroidAcc.z = ∑ a in memberSet pts cs ρ, (ptAt pts a).z ∧
    (cs ρ).centroidWeight = ((memberSet pts cs ρ).card : ℚ)

theorem initClusters_isRoot (pts : List Pt) (i : Nat) :
    isRoot (initClusters pts) i := rfl

theorem initClusters_wf (pts : List Pt) : WF (initClusters pts) pts.length :=
  ⟨fun i hi => hi, fun i _ => ⟨i, RootedAt.root rfl⟩⟩

theorem rootOf_initClusters (pts : List Pt) {i : Nat} (hi : i < pts.length) :
    rootOf (initClusters pts) pts.length i = i :=
  rootOf_of_isRoot (initClusters_wf pts) hi rfl

theorem centroidInv_init (pts : List Pt) :
    CentroidInv pts (initClusters pts) := by
  intro ρ hρ _
  have hm : memberSet pts (initClusters pts) ρ = {ρ} := by
    ext a
    simp only [memberSet, Finset.mem_filter, Finset.mem_range,
      Finset.mem_singleton]
    constructor
    · rintro ⟨ha, hr⟩
      rw [rootOf_initClusters pts ha] at hr
      exact hr
    · rintro rfl
      exact ⟨hρ, rootOf_initClusters pts hρ⟩
  rw [hm]
  simp [initClusters]

theorem processPair_centroid {pts : List Pt} {cs : CState} {i j : Nat}
    (h : WF cs pts.length) (hi : i < pts.length) (hj : j < pts.length)
    (hc : CentroidInv pts cs) :
    CentroidInv pts (processPair cs pts.length i j) := by
  obtain ⟨hwf', hroot', hisr'⟩ := processPair_spec h hi hj
  intro ρ hρ hρr'
  obtain ⟨hrρ, hcase⟩ := (hisr' ρ).mp hρr'
  obtain ⟨hfa, hfw⟩ := processPair_fields cs pts.length i j ρ
  by_cases heq : rootOf cs pts.length j = rootOf cs pts.length i
  · -- Same root: root assignment and fields unchanged.
    have hru : ∀ a, a < pts.length →
        rootOf (processPair cs pts.length i j) pts.length a =
          rootOf cs pts.length a := by
      intro a ha
      rw [hroot' a ha]
      by_cases hcc : rootOf cs pts.length a = rootOf cs pts.length j
      · rw [if_pos hcc, hcc, heq]
      · rw [if_neg hcc]
    have hmem : memberSet pts (processPair cs pts.length i j) ρ =
        memberSet pts cs ρ := by
      unfold memberSet
      refine Finset.filter_congr ?_
      intro a ha
      rw [hru a (Finset.mem_range.mp ha)]
    have hcond : ¬(rootOf cs pts.length j ≠ rootOf cs pts.length i ∧
        ρ = rootOf cs pts.length i) := by rintro ⟨hc', _⟩; exact hc' heq
    rw [hfa, hfw, if_neg hcond, if_neg hcond, hmem]
    exact hc ρ hρ hrρ
  · have hρo : ρ ≠ rootOf cs pts.length j := by
      rcases hcase with hcc | hcc
      · exact absurd hcc heq
      · exact hcc
    by_cases hρi : ρ = rootOf cs pts.length i
    · -- The query root absorbs the other root's members.
      subst hρi
      have hdis : Disjoint (memberSet pts cs (rootOf cs pts.length i))
          (memberSet pts cs (rootOf cs pts.length j)) := by
        rw [Finset.disjoint_left]
        intro a hai haj
        simp only [memberSet, Finset.mem_filter] at hai haj
        exact heq (haj.2.symm.trans hai.2)
      have hmem : memberSet pts (processPair cs pts.length i j)
          (rootOf cs pts.length i) =
          memberSet pts cs (rootOf cs pts.length i) ∪
            memberSet pts cs (rootOf cs pts.length j) := by
        unfold memberSet
        rw [← Finset.filter_or]
        refine Finset.filter_congr ?_
        intro a ha
        rw [hroot' a (Finset.mem_range.mp ha)]
        by_cases hcc : rootOf cs pts.length a = rootOf cs pts.length j
        · rw [if_pos hcc]
          exact iff_of_true rfl (Or.inr hcc)
        · rw [if_neg hcc]
          constructor
          · intro hr; exact Or.inl hr
          · rintro (hr | hr)
            · exact hr
            · exact absurd hr hcc
      have hcond : rootOf cs pts.length j ≠ rootOf cs pts.length i ∧
          rootOf cs pts.length i = rootOf cs pts.length i := ⟨heq, rfl⟩
      obtain ⟨hx, hy, hz, hw⟩ := hc (rootOf cs pts.length i)
        (rootOf_lt h hi) (rootOf_isRoot h hi)
      obtain ⟨hx', hy', hz', hw'⟩ := hc (rootOf cs pts.length j)
        (rootOf_lt h hj) (rootOf_isRoot h hj)
      rw [hfa, hfw, if_pos hcond, if_pos hcond, hmem,
        Finset.sum_union hdis, Finset.sum_union hdis, Finset.sum_union hdis,
        Finset.card_union_of_disjoint hdis]
      refine ⟨?_, ?_, ?_, ?_⟩
      · show ((cs (rootOf cs pts.length i)).centroidAcc.x +
          (cs (rootOf cs pts.length j)).centroidAcc.x) = _
        rw [hx, hx']
      · show ((cs (rootOf cs pts.length i)).centroidAcc.y +
          (cs (rootOf cs pts.length j)).centroidAcc.y) = _
        rw [hy, hy']
      · show ((cs (rootOf cs pts.length i)).centroidAcc.z +
          (cs (rootOf cs pts.length j)).centroidAcc.z) = _
        rw [hz, hz']
      · rw [hw, hw']
        push_cast
        ring
    · -- An uninvolved root: members and fields unchanged.
      have hmem : memberSet pts (processPair cs pts.length i j) ρ =
          memberSet pts cs ρ := by
        unfold memberSet
        refine Finset.filter_congr ?_
        intro a ha
        rw [hroot' a (Finset.mem_range.mp ha)]
        by_cases hcc : rootOf cs pts.length a = rootOf cs pts.length j
        · rw [if_pos hcc, hcc]
          exact iff_of_false (fun hc' => hρi hc'.symm) (fun hc' => hρo hc'.symm)
        · rw [if_neg hcc]
      have hcond : ¬(rootOf cs pts.length j ≠ rootOf cs pts.length i ∧
          ρ = rootOf cs pts.length i) := by rintro ⟨_, hc'⟩; exact hρi hc'
      rw [hfa, hfw, if_neg hcond, if_neg hcond, hmem]
      exact hc ρ hρ hrρ

/-! ### Merge-loop invariants -/

/-- Soundness: equal roots only arise between single-linkage-connected
vertices. -/
def Sound (pts : List Pt) (tol2 : ℚ) (cs : CState) : Prop :=
  ∀ a b, a < pts.length → b < pts.length →
    rootOf cs pts.length a = rootOf cs pts.length b → Linked pts tol2 a b

theorem sound_init (pts : List Pt) (tol2 : ℚ) :
    Sound pts tol2 (initClusters pts) := by
  intro a b ha hb hr
  rw [rootOf_initClusters pts ha, rootOf_initClusters pts hb] at hr
  subst hr
  exact Linked.refl ha

theorem processPair_sound {pts : List Pt} {tol2 : ℚ} {cs : CState}
    {i j : Nat} (h : WF cs pts.length) (hi : i < pts.length)
    (hj : j < pts.length)
    (hedge : sqrDist (ptAt pts j) (ptAt pts i) ≤ tol2)
    (hs : Sound pts tol2 cs) :
    Sound pts tol2 (processPair cs pts.length i j) := by
  obtain ⟨_, hroot', _⟩ := processPair_spec h hi hj
  intro a b ha hb hr
  rw [hroot' a ha, hroot' b hb] at hr
  have hji : Linked pts tol2 j i := Linked.single hj hi hedge
  by_cases hca : rootOf cs pts.length a = rootOf cs pts.length j
  · rw [if_pos hca] at hr
    by_cases hcb : rootOf cs pts.length b = rootOf cs pts.length j
    · exact hs a b ha hb (hca.trans hcb.symm)
    · rw [if_neg hcb] at hr
      -- a is in j's class, b is in i's class (its root equals rootOf i)
      have haj : Linked pts tol2 a j := hs a j ha hj hca
      have hbi : Linked pts tol2 b i := hs b i hb hi hr.symm
      exact (haj.trans hji).trans hbi.symm
  · rw [if_neg hca] at hr
    by_cases hcb : rootOf cs pts.length b = rootOf cs pts.length j
    · rw [if_pos hcb] at hr
      have hbj : Linked pts tol2 b j := hs b j hb hj hcb
      have hai : Linked pts tol2 a i := hs a i ha hi hr
      exact (hai.trans hji.symm).trans hbj.symm
    · rw [if_neg hcb] at hr
      exact hs a b ha hb hr

/-- Processing a pair never separates previously-merged vertices. -/
theorem processPair_mono {cs : CState} {n i j a b : Nat} (h : WF cs n)
    (hi : i < n) (hj : j < n) (ha : a < n) (hb : b < n)
    (hr : rootOf cs n a = rootOf cs n b) :
    rootOf (processPair cs n i j) n a = rootOf (processPair cs n i j) n b := by
  obtain ⟨_, hroot', _⟩ := processPair_spec h hi hj
  rw [hroot' a ha, hroot' b hb, hr]

/-- Processing a pair merges the two vertices' clusters. -/
theorem processPair_join {cs : CState} {n i j : Nat} (h : WF cs n)
    (hi : i < n) (hj : j < n) :
    rootOf (processPair cs n i j) n i = rootOf (processPair cs n i j) n j := by
  obtain ⟨_, hroot', _⟩ := processPair_spec h hi hj
  rw [hroot' i hi, hroot' j hj, if_pos rfl]
  by_cases hc : rootOf cs n i = rootOf cs n j
  · rw [if_pos hc, hc]
  · rw [if_neg hc]

/-- The combined invariant carried through the merge loops. -/
def MergeInv (pts : List Pt) (tol2 : ℚ) (cs : CState) : Prop :=
  WF cs pts.length ∧ Sound pts tol2 cs ∧ CentroidInv pts cs

theorem mergeInv_init (pts : List Pt) (tol2 : ℚ) :
    MergeInv pts tol2 (initClusters pts) :=
  ⟨initClusters_wf pts, sound_init pts tol2, centroidInv_init pts⟩

theorem visitAll_pres {pts : List Pt} {tol2 : ℚ} {cs : CState} {i : Nat}
    {js : List Nat} (h : MergeInv pts tol2 cs) (hi : i < pts.length)
    (hjs : ∀ j ∈ js, j < pts.length) :
    MergeInv pts tol2 (visitAll pts tol2 cs i js) := by
  induction js generalizing cs with
  | nil => exact h
  | cons j rest ih =>
    have hj : j < pts.length := hjs j (List.mem_cons_self j rest)
    have hrest : ∀ j' ∈ rest, j' < pts.length :=
      fun j' hj' => hjs j' (List.mem_cons_of_mem j hj')
    show MergeInv pts tol2 (visitAll pts tol2 _ i rest)
    by_cases hg : sqrDist (ptAt pts j) (ptAt pts i) ≤ tol2
    · rw [if_pos hg]
      exact ih ⟨(processPair_spec h.1 hi hj).1,
        processPair_sound h.1 hi hj hg h.2.1,
        processPair_centroid h.1 hi hj h.2.2⟩ hrest
    · rw [if_neg hg]
      exact ih h hrest

theorem visitAll_mono {pts : List Pt} {tol2 : ℚ} {cs : CState} {i : Nat}
    {js : List Nat} (h : WF cs pts.length) (hi : i < pts.length)
    (hjs : ∀ j ∈ js, j < pts.length) {a b : Nat} (ha : a < pts.length)
    (hb : b < pts.length)
    (hr : rootOf cs pts.length a = rootOf cs pts.length b) :
    rootOf (visitAll pts tol2 cs i js) pts.length a =
      rootOf (visitAll pts tol2 cs i js) pts.length b := by
  induction js generalizing cs with
  | nil => exact hr
  | cons j rest ih =>
    have hj : j < pts.length := hjs j (List.mem_cons_self j rest)
    have hrest : ∀ j' ∈ rest, j' < pts.length :=
      fun j' hj' => hjs j' (List.mem_cons_of_mem j hj')
    simp only [visitAll]
    by_cases hg : sqrDist (ptAt pts j) (ptAt pts i) ≤ tol2
    · rw [if_pos hg]
      exact ih (processPair_spec h hi hj).1 hrest
        (processPair_mono h hi hj ha hb hr)
    · rw [if_neg hg]
      exact ih h hrest hr

theorem visitAll_wf {pts : List Pt} {tol2 : ℚ} {cs : CState} {i : Nat}
    {js : List Nat} (h : WF cs pts.length) (hi : i < pts.length)
    (hjs : ∀ j ∈ js, j < pts.length) :
    WF (visitAll pts tol2 cs i js) pts.length := by
  induction js generalizing cs with
  | nil => exact h
  | cons j rest ih =>
    have hj : j < pts.length := hjs j (List.mem_cons_self j rest)
    have hrest : ∀ j' ∈ rest, j' < pts.length :=
      fun j' hj' => hjs j' (List.mem_cons_of_mem j hj')
    show WF (visitAll pts tol2 _ i rest) pts.length
    by_cases hg : sqrDist (ptAt pts j) (ptAt pts i) ≤ tol2
    · rw [if_pos hg]
      exact ih (processPair_spec h hi hj).1 hrest
    · rw [if_neg hg]
      exact ih h hrest

/-- After a traversal for query vertex `i`, every visited vertex within
the radius shares `i`'s root. -/
theorem visitAll_complete {pts : List Pt} {tol2 : ℚ} {cs : CState} {i : Nat}
    {js : List Nat} (h : WF cs pts.length) (hi : i < pts.length)
    (hjs : ∀ j ∈ js, j < pts.length) :
    ∀ j ∈ js, sqrDist (ptAt pts j) (ptAt pts i) ≤ tol2 →
      rootOf (visitAll pts tol2 cs i js) pts.length i =
        rootOf (visitAll pts tol2 cs i js) pts.length j := by
  induction js generalizing cs with
  | nil => intro j hj; exact absurd hj (List.not_mem_nil j)
  | cons j rest ih =>
    have hjn : j < pts.length := hjs j (List.mem_cons_self j rest)
    have hrest : ∀ j' ∈ rest, j' < pts.length :=
      fun j' hj' => hjs j' (List.mem_cons_of_mem j hj')
    intro j' hj' hg'
    rcases List.mem_cons.mp hj' with rfl | hmem
    · -- the head pair is processed now; later steps preserve the equality
      simp only [visitAll]
      rw [if_pos hg']
      exact visitAll_mono (processPair_spec h hi hjn).1 hi hrest hi
        (hjs j' (List.mem_cons_self j' rest)) (processPair_join h hi hjn)
    · simp only [visitAll]
      by_cases hg : sqrDist (ptAt pts j) (ptAt pts i) ≤ tol2
      · rw [if_pos hg]
        exact ih (processPair_spec h hi hjn).1 hrest j' hmem hg'
      · rw [if_neg hg]
        exact ih h hrest j' hmem hg'

theorem mergePhase_pres {pts : List Pt} {tol2 : ℚ} {cs : CState}
    {outer : List Nat} (h : MergeInv pts tol2 cs)
    (houter : ∀ i ∈ outer, i < pts.length) :
    MergeInv pts tol2 (mergePhase pts tol2 cs outer) := by
  induction outer generalizing cs with
  | nil => exact h
  | cons i rest ih =>
    have hi : i < pts.length := houter i (List.mem_cons_self i rest)
    have hrest : ∀ i' ∈ rest, i' < pts.length :=
      fun i' hi' => houter i' (List.mem_cons_of_mem i hi')
    exact ih (visitAll_pres h hi (fun j hj => List.mem_range.mp hj)) hrest

theorem mergePhase_mono {pts : List Pt} {tol2 : ℚ} {cs : CState}
    {outer : List Nat} (h : WF cs pts.length)
    (houter : ∀ i ∈ outer, i < pts.length) {a b : Nat} (ha : a < pts.length)
    (hb : b < pts.length)
    (hr : rootOf cs pts.length a = rootOf cs pts.length b) :
    rootOf (mergePhase pts tol2 cs outer) pts.length a =
      rootOf (mergePhase pts tol2 cs outer) pts.length b := by
  induction outer generalizing cs with
  | nil => exact hr
  | cons i rest ih =>
    have hi : i < pts.length := houter i (List.mem_cons_self i rest)
    have hrest : ∀ i' ∈ rest, i' < pts.length :=
      fun i' hi' => houter i' (List.mem_cons_of_mem i hi')
    exact ih (visitAll_wf h hi (fun j hj => List.mem_range.mp hj)) hrest
      (visitAll_mono h hi (fun j hj => List.mem_range.mp hj) ha hb hr)

/-- After the merge loop, every within-radius pair whose query vertex was
traversed shares one root. -/
theorem mergePhase_complete {pts : List Pt} {tol2 : ℚ} {cs : CState}
    {outer : List Nat} (h : WF cs pts.length)
    (houter : ∀ i ∈ outer, i < pts.length) :
    ∀ i ∈ outer, ∀ j, j < pts.length →
      sqrDist (ptAt pts j) (ptAt pts i) ≤ tol2 →
      rootOf (mergePhase pts tol2 cs outer) pts.length i =
        rootOf (mergePhase pts tol2 cs outer) pts.length j := by
  induction outer generalizing cs with
  | nil => intro i hi; exact absurd hi (List.not_mem_nil i)
  | cons i rest ih =>
    have hi : i < pts.length := houter i (List.mem_cons_self i rest)
    have hrest : ∀ i' ∈ rest, i' < pts.length :=
      fun i' hi' => houter i' (List.mem_cons_of_mem i hi')
    intro i' hi' j hj hg
    rcases List.mem_cons.mp hi' with rfl | hmem
    · simp only [mergePhase]
      refine mergePhase_mono
        (visitAll_wf h hi (fun j' hj' => List.mem_range.mp hj')) hrest hi hj ?_
      exact visitAll_complete h hi (fun j' hj' => List.mem_range.mp hj') j
        (List.mem_range.mpr hj) hg
    · simp only [mergePhase]
      exact ih (visitAll_wf h hi (fun j' hj' => List.mem_range.mp hj'))
        hrest i' hmem j hj hg

/-- Master characterization of the merge phase: two vertices end with the
same root iff they are single-linkage connected. -/
theorem mergedState_rootOf_iff {pts : List Pt} {tol2 : ℚ} {a b : Nat}
    (ha : a < pts.length) (hb : b < pts.length) :
    (rootOf (mergedState pts tol2) pts.length a =
      rootOf (mergedState pts tol2) pts.length b) ↔ Linked pts tol2 a b := by
  have hinv := mergePhase_pres (mergeInv_init pts tol2)
    (fun i hi => List.mem_range.mp (hi : i ∈ List.range pts.length))
  constructor
  · intro hr
    exact hinv.2.1 a b ha hb hr
  · intro hl
    have hstep : ∀ x y, Linked pts tol2 x y →
        y < pts.length ∧ rootOf (mergedState pts tol2) pts.length x =
          rootOf (mergedState pts tol2) pts.length y := by
      intro x y hxy
      induction hxy with
      | refl h => exact ⟨h, rfl⟩
      | tail hpre hk he ih =>
        refine ⟨hk, ih.2.trans ?_⟩
        exact (mergePhase_complete (initClusters_wf pts)
          (fun i hi => List.mem_range.mp hi) _ (List.mem_range.mpr hk) _
          ih.1 he).symm
    exact (hstep a b hl).2

/-! ### Finalization: index assignment and short-circuiting -/

theorem vertexIndex_setParent (cs : CState) (x r y : Nat) :
    ((setParent cs x r) y).vertexIndex = (cs y).vertexIndex := by
  by_cases h : y = x
  · subst h; simp [setParent, setCluster]
  · simp [setParent, setCluster, Function.update_noteq h]

theorem vertexIndex_setVertexIndex (cs : CState) (i k y : Nat) :
    ((setVertexIndex cs i k) y).vertexIndex =
      if y = i then k else (cs y).vertexIndex := by
  by_cases h : y = i
  · subst h; simp [setVertexIndex, setCluster]
  · simp [setVertexIndex, setCluster, Function.update_noteq h, h]

theorem setParent_noop {cs : CState} {x : Nat} (h : parentOf cs x = x) :
    setParent cs x x = cs := by
  have hss := @setParent_self cs x
  rwa [h] at hss

theorem setParent_setParent (cs : CState) (x a b : Nat) :
    setParent (setParent cs x a) x b = setParent cs x b := by
  funext y
  by_cases h : y = x
  · subst h; simp [setParent, setCluster]
  · simp [setParent, setCluster, Function.update_noteq h]

/-- The short-circuit loop of the index-assignment pass:
`while(cPtr->root != cPtr->root->root) cPtr->root = cPtr->root->root;`
embedded with explicit fuel (the arena size always suffices under WF). -/
def scLoop (cs : CState) (i : Nat) : Nat → CState
  | 0 => cs
  | f + 1 =>
    if parentOf cs (parentOf cs i) ≠ parentOf cs i then
      scLoop (setParent cs i (parentOf cs (parentOf cs i))) i f
    else cs

theorem iterP_two (cs : CState) (i : Nat) :
    iterP cs 2 i = parentOf cs (parentOf cs i) := rfl

/-- After replacing `i`'s parent by its grandparent, `i`'s chain is the
old chain with the first step skipped. -/
theorem iterP_skip {cs : CState} {n i : Nat} (h : WF cs n) (hi : i < n)
    (hnr : ¬isRoot cs i) :
    ∀ m, 1 ≤ m →
      iterP (setParent cs i (parentOf cs (parentOf cs i))) m i =
        iterP cs (m + 1) i := by
  obtain ⟨ρ, hρ⟩ := h.rooted i hi
  have hnc : ∀ t, 1 ≤ t → iterP cs t i ≠ i := by
    intro t ht hc
    exact hnr (hρ.no_cycle t ht hc)
  intro m hm
  induction m with
  | zero => exact absurd hm (by omega)
  | succ m ih =>
    rcases Nat.eq_zero_or_pos m with rfl | hmpos
    · show parentOf (setParent cs i (parentOf cs (parentOf cs i))) i = _
      rw [parentOf_setParent_self, ← iterP_two]
    · rw [iterP_succ_out, ih hmpos,
        parentOf_setParent_other cs _ (hnc (m + 1) (by omega)),
        ← iterP_succ_out]

/-- The short-circuit loop is extensionally one parent rewrite to the
chain's root, given enough fuel to walk the chain. -/
theorem scLoop_spec {cs : CState} {n i : Nat} (h : WF cs n) (hi : i < n) :
    ∀ f, isRoot cs (iterP cs f i) →
      scLoop cs i f = setParent cs i (rootOf cs n i) := by
  intro f
  induction f generalizing cs with
  | zero =>
    intro hroot
    rw [rootOf_of_isRoot h hi hroot]
    exact (setParent_noop hroot).symm
  | succ f ih =>
    intro hroot
    by_cases hc : parentOf cs (parentOf cs i) ≠ parentOf cs i
    · have hstep : scLoop cs i (f + 1) =
          scLoop (setParent cs i (parentOf cs (parentOf cs i))) i f := by
        show (if parentOf cs (parentOf cs i) ≠ parentOf cs i then _ else cs) = _
        rw [if_pos hc]
      have hnr : ¬isRoot cs i := by
        intro hr
        refine hc ?_
        have hpp : parentOf cs i = i := hr
        rw [hpp]
        exact hpp
      -- the rewrite target is the grandparent, i.e. iterP 2 along the chain
      obtain ⟨ρ, hρ⟩ := h.rooted i hi
      have hretar : ∀ a r', RootedAt cs a r' →
          RootedAt (setParent cs i (parentOf cs (parentOf cs i))) a r' := by
        intro a r' ha
        exact RootedAt.retarget hnr hρ one_le_two (iterP_two cs i) ha
      have hwf' : WF (setParent cs i (parentOf cs (parentOf cs i))) n := by
        refine ⟨?_, ?_⟩
        · intro a ha
          by_cases hai : a = i
          · subst hai
            rw [parentOf_setParent_self, ← iterP_two]
            exact iterP_lt h.inRange ha 2
          · rw [parentOf_setParent_other cs _ hai]
            exact h.inRange a ha
        · intro a ha
          obtain ⟨r', hr'⟩ := h.rooted a ha
          exact ⟨r', hretar a r' hr'⟩
      have hroeq : ∀ a, a < n →
          rootOf (setParent cs i (parentOf cs (parentOf cs i))) n a =
            rootOf cs n a := by
        intro a ha
        exact rootOf_eq_of_rootedAt hwf' ha (hretar a _ (rootedAt_rootOf h ha))
      rw [hstep, ih hwf' (by
          rcases Nat.eq_zero_or_pos f with rfl | hf
          · exact absurd hroot hc
          · have hskip := iterP_skip h hi hnr f hf
            rw [hskip]
            have : isRoot cs (iterP cs (f + 1) i) := hroot
            have hz : iterP cs (f + 1) i ≠ i := by
              intro hzz
              exact hnr (hρ.no_cycle (f + 1) (by omega) hzz)
            unfold isRoot
            rw [parentOf_setParent_other cs _ hz]
            exact this),
        hroeq i hi, setParent_setParent]
    · -- parent is already a root: loop exits; one no-op or direct rewrite
      have hstep : scLoop cs i (f + 1) = cs := by
        show (if parentOf cs (parentOf cs i) ≠ parentOf cs i then _ else cs) = cs
        rw [if_neg hc]
      push_neg at hc
      by_cases hri : isRoot cs i
      · rw [hstep, rootOf_of_isRoot h hi hri]
        exact (setParent_noop hri).symm
      · have hrp : isRoot cs (parentOf cs i) := hc
        have : rootOf cs n i = parentOf cs i :=
          rootOf_eq_of_rootedAt h hi (RootedAt.step hri (RootedAt.root hrp))
        rw [hstep, this, setParent_self]

/-- One step of the index-assignment pass (VertexClusterer.h lines
136-151): a root cluster receives the next dense vertex index; a non-root
cluster is short-circuited to its root. -/
def assignStep (n : Nat) (p : CState × Nat) (i : Nat) : CState × Nat :=
  if parentOf p.1 i = i then (setVertexIndex p.1 i p.2, p.2 + 1)
  else (scLoop p.1 i n, p.2)

/-- The index-assignment pass over the whole arena, threading the
`numClusters` counter. -/
def assignPass (n : Nat) (p : CState × Nat) : List Nat → CState × Nat
  | [] => p
  | i :: rest => assignPass n (assignStep n p i) rest

/-- The number of root clusters with arena index below `m`. -/
def cntBelow (cs : CState) (m : Nat) : Nat :=
  ((List.range m).filter (fun j => decide (parentOf cs j = j))).length

/-- Relation between the pre-pass state `cs0` and the state midway through
the index-assignment pass, after processing arena indices `[0, m)`. -/
structure MidInv (cs0 : CState) (n m : Nat) (p : CState × Nat) : Prop where
  wf : WF p.1 n
  rootEq : ∀ a, a < n → rootOf p.1 n a = rootOf cs0 n a
  isRootEq : ∀ y, isRoot p.1 y ↔ isRoot cs0 y
  fields : ∀ y, (p.1 y).centroidAcc = (cs0 y).centroidAcc ∧
    (p.1 y).centroidWeight = (cs0 y).centroidWeight
  counter : p.2 = cntBelow cs0 m
  vtx : ∀ i, i < m → isRoot cs0 i → (p.1 i).vertexIndex = cntBelow cs0 i
  compressed : ∀ i, i < m → i < n → ¬isRoot cs0 i →
    parentOf p.1 i = rootOf cs0 n i
  untouched : ∀ i, m ≤ i → parentOf p.1 i = parentOf cs0 i

theorem midInv_init {cs0 : CState} {n : Nat} (h0 : WF cs0 n) :
    MidInv cs0 n 0 (cs0, 0) := by
  refine ⟨h0, fun a _ => rfl, fun y => Iff.rfl, fun y => ⟨rfl, rfl⟩, rfl,
    ?_, ?_, fun i _ => rfl⟩
  · intro i hi; exact absurd hi (Nat.not_lt_zero i)
  · intro i hi; exact absurd hi (Nat.not_lt_zero i)

theorem cntBelow_succ (cs0 : CState) (m : Nat) :
    cntBelow cs0 (m + 1) =
      cntBelow cs0 m + (if parentOf cs0 m = m then 1 else 0) := by
  unfold cntBelow
  rw [List.range_succ, List.filter_append, List.length_append]
  by_cases h : parentOf cs0 m = m
  · simp [h]
  · simp [h]

theorem midInv_step {cs0 : CState} {n m : Nat} {p : CState × Nat}
    (hinv : MidInv cs0 n m p) (hm : m < n) :
    MidInv cs0 n (m + 1) (assignStep n p m) := by
  by_cases hr : parentOf p.1 m = m
  · -- root: assign the next vertex index
    have hr0 : isRoot cs0 m := (hinv.isRootEq m).mp hr
    have hstep : assignStep n p m = (setVertexIndex p.1 m p.2, p.2 + 1) := by
      unfold assignStep
      rw [if_pos hr]
    rw [hstep]
    have hpar : ∀ y, parentOf (setVertexIndex p.1 m p.2) y = parentOf p.1 y :=
      fun y => parentOf_setVertexIndex p.1 m p.2 y
    refine ⟨WF_congr hpar hinv.wf, ?_, ?_, ?_, ?_, ?_, ?_, ?_⟩
    · intro a ha
      rw [rootOf_congr hpar n a]
      exact hinv.rootEq a ha
    · intro y
      rw [isRoot_congr hpar y]
      exact hinv.isRootEq y
    · intro y
      obtain ⟨ha, hw⟩ := centroid_setVertexIndex p.1 m p.2 y
      rw [ha, hw]
      exact hinv.fields y
    · show p.2 + 1 = cntBelow cs0 (m + 1)
      rw [cntBelow_succ, if_pos (show parentOf cs0 m = m from hr0),
        hinv.counter]
    · intro i hi hri
      rw [vertexIndex_setVertexIndex]
      by_cases him : i = m
      · subst him
        rw [if_pos rfl, hinv.counter]
      · rw [if_neg him]
        exact hinv.vtx i (by omega) hri
    · intro i hi hin hnri
      rw [hpar i]
      rcases Nat.lt_or_ge i m with him | him
      · exact hinv.compressed i him hin hnri
      · exfalso
        have : i = m := by omega
        subst this
        exact hnri hr0
    · intro i hi
      rw [hpar i]
      exact hinv.untouched i (by omega)
  · -- non-root: short-circuit to the root
    have hr0 : ¬isRoot cs0 m := fun hc => hr ((hinv.isRootEq m).mpr hc)
    have hstep : assignStep n p m = (scLoop p.1 m n, p.2) := by
      unfold assignStep
      rw [if_neg hr]
    have hfuel : isRoot p.1 (iterP p.1 n m) := by
      obtain ⟨r', hr'⟩ := hinv.wf.rooted m hm
      obtain ⟨k, hk, hkr⟩ := RootedAt.iff_iterP.mp hr'
      exact chain_bound hinv.wf.inRange hm ⟨k, by rw [hk]; exact hkr⟩
    have hsc : scLoop p.1 m n = setParent p.1 m (rootOf p.1 n m) :=
      scLoop_spec hinv.wf hm n hfuel
    obtain ⟨hwf', hro'⟩ := compress_spec hinv.wf hm
    rw [hstep, hsc]
    refine ⟨hwf', ?_, ?_, ?_, ?_, ?_, ?_, ?_⟩
    · intro a ha
      rw [hro' a ha]
      exact hinv.rootEq a ha
    · intro y
      rw [compress_isRoot hinv.wf hm y]
      exact hinv.isRootEq y
    · intro y
      obtain ⟨ha, hw⟩ := centroid_setParent p.1 m (rootOf p.1 n m) y
      rw [ha, hw]
      exact hinv.fields y
    · show p.2 = cntBelow cs0 (m + 1)
      rw [cntBelow_succ,
        if_neg (show ¬parentOf cs0 m = m from fun hc => hr0 hc)]
      simpa using hinv.counter
    · intro i hi hri
      rw [vertexIndex_setParent]
      by_cases him : i = m
      · subst him
        exact absurd hri hr0
      · exact hinv.vtx i (by omega) hri
    · intro i hi hin hnri
      by_cases him : i = m
      · subst him
        rw [parentOf_setParent_self, hinv.rootEq i hin]
      · rw [parentOf_setParent_other p.1 _ him]
        exact hinv.compressed i (by omega) hin hnri
    · intro i hi
      rw [parentOf_setParent_other p.1 _ (by omega : i ≠ m)]
      exact hinv.untouched i (by omega)

theorem midInv_pass {cs0 : CState} {n : Nat} :
    ∀ c m p, MidInv cs0 n m p → m + c = n →
      MidInv cs0 n n (assignPass n p (List.range' m c)) := by
  intro c
  induction c with
  | zero =>
    intro m p h hmc
    have : m = n := by omega
    subst this
    exact h
  | succ c ih =>
    intro m p h hmc
    rw [List.range'_succ m c 1]
    exact ih (m + 1) (assignStep n p m) (midInv_step h (by omega)) (by omega)

/-! ### The clusterer public interface -/

/-- VertexClusterer::createClusters(maxDist): the merge loop followed by
the index-assignment pass; returns the final arena together with the
number of remaining separate clusters. -/
def createClusters (pts : List Pt) (maxDist : ℚ) : CState × Nat :=
  assignPass pts.length (mergedState pts (maxDist ^ 2), 0)
    (List.range pts.length)

/-- The root-cluster pointer array (`rootClusters`), as the list of root
arena indices in increasing order; `rootClusters[m] - clusters` is the
`m`-th entry. -/
def rootClustersList (cs : CState) (n : Nat) : List Nat :=
  (List.range n).filter (fun i => decide (parentOf cs i = i))

/-- VertexClusterer::getMergedVertexIndex:
`clusters[originalVertexIndex].root->vertexIndex`. -/
def getMergedVertexIndex (cs : CState) (i : Nat) : Nat :=
  (cs (parentOf cs i)).vertexIndex

/-- VertexClusterer::getOriginalVertexIndex:
`rootClusters[mergedVertexIndex] - clusters`. -/
def getOriginalVertexIndex (cs : CState) (n m : Nat) : Nat :=
  (rootClustersList cs n).getD m 0

/-- VertexClusterer::retrieveMergedVertices: the merged vertex positions,
each root cluster's accumulated centroid divided by its accumulated
weight, in root order. -/
def retrieveMergedVertices (cs : CState) (n : Nat) : List Pt :=
  (rootClustersList cs n).map
    (fun ρ => Pt.divBy (cs ρ).centroidAcc (cs ρ).centroidWeight)

theorem midInv_createClusters (pts : List Pt) (maxDist : ℚ) :
    MidInv (mergedState pts (maxDist ^ 2)) pts.length pts.length
      (createClusters pts maxDist) := by
  have h0 : WF (mergedState pts (maxDist ^ 2)) pts.length :=
    (mergePhase_pres (mergeInv_init pts (maxDist ^ 2))
      (fun i hi => List.mem_range.mp hi)).1
  have := midInv_pass pts.length 0 (mergedState pts (maxDist ^ 2), 0)
    (midInv_init h0) (by omega)
  rwa [← List.range_eq_range' pts.length] at this

/-! ### Counting lemmas for the dense index assignment -/

theorem cntBelow_mono (cs : CState) {a b : Nat} (hab : a ≤ b) :
    cntBelow cs a ≤ cntBelow cs b := by
  obtain ⟨c, rfl⟩ := Nat.exists_eq_add_of_le hab
  induction c with
  | zero => exact le_refl _
  | succ c ih =>
    have h1 : a + (c + 1) = (a + c) + 1 := by omega
    have h2 := ih (by omega)
    rw [h1, cntBelow_succ]
    by_cases h : parentOf cs (a + c) = a + c
    · rw [if_pos h]; omega
    · rw [if_neg h]; omega

theorem cntBelow_strict (cs : CState) {ρ ρ' : Nat}
    (hρ : parentOf cs ρ = ρ) (h : ρ < ρ') :
    cntBelow cs ρ < cntBelow cs ρ' := by
  have h1 : cntBelow cs (ρ + 1) = cntBelow cs ρ + 1 := by
    rw [cntBelow_succ, if_pos hρ]
  have h2 : cntBelow cs (ρ + 1) ≤ cntBelow cs ρ' := cntBelow_mono cs h
  omega

theorem cntBelow_inj (cs : CState) {ρ ρ' : Nat}
    (hρ : parentOf cs ρ = ρ) (hρ' : parentOf cs ρ' = ρ')
    (h : cntBelow cs ρ = cntBelow cs ρ') : ρ = ρ' := by
  rcases lt_trichotomy ρ ρ' with hlt | heq | hgt
  · exact absurd h (Nat.ne_of_lt (cntBelow_strict cs hρ hlt))
  · exact heq
  · exact absurd h.symm (Nat.ne_of_lt (cntBelow_strict cs hρ' hgt))

/-- The `m`-th entry of a filtered range satisfies the predicate, is below
the bound, and has exactly `m` earlier satisfying indices. -/
theorem filterRange_getD {p : Nat → Bool} {n m : Nat}
    (hm : m < ((List.range n).filter p).length) :
    p (((List.range n).filter p).getD m 0) = true ∧
      ((List.range n).filter p).getD m 0 < n ∧
      ((List.range (((List.range n).filter p).getD m 0)).filter p).length
        = m := by
  induction n with
  | zero => simp at hm
  | succ n ih =>
    rw [List.range_succ, List.filter_append] at hm ⊢
    rcases Nat.lt_or_ge m ((List.range n).filter p).length with h | h
    · rw [List.getD_append _ _ 0 m h]
      obtain ⟨h1, h2, h3⟩ := ih h
      exact ⟨h1, by omega, h3⟩
    · by_cases hp : p n
      · have hfn : List.filter p [n] = [n] := by simp [hp]
        rw [hfn] at hm ⊢
        have hme : m = ((List.range n).filter p).length := by
          rw [List.length_append] at hm
          simp at hm
          omega
        subst hme
        have hgd : (((List.range n).filter p) ++ [n]).getD
            ((List.range n).filter p).length 0 = n := by
          simp [List.getD, List.getElem?_append_right]
        rw [hgd]
        exact ⟨hp, by omega, rfl⟩
      · exfalso
        have hfn : List.filter p [n] = [] := by simp [hp]
        rw [hfn, List.length_append] at hm
        simp at hm
        omega

/-! ### Derived clusterer facts -/

theorem mergedState_wf (pts : List Pt) (tol2 : ℚ) :
    WF (mergedState pts tol2) pts.length :=
  (mergePhase_pres (mergeInv_init pts tol2)
    (fun i hi => List.mem_range.mp hi)).1

theorem mergedState_centroid (pts : List Pt) (tol2 : ℚ) :
    CentroidInv pts (mergedState pts tol2) :=
  (mergePhase_pres (mergeInv_init pts tol2)
    (fun i hi => List.mem_range.mp hi)).2.2

theorem createClusters_parent (pts : List Pt) (maxDist : ℚ) {i : Nat}
    (hi : i < pts.length) :
    parentOf (createClusters pts maxDist).1 i =
      rootOf (mergedState pts (maxDist ^ 2)) pts.length i := by
  have hmid := midInv_createClusters pts maxDist
  by_cases hr : isRoot (mergedState pts (maxDist ^ 2)) i
  · have hrF : isRoot (createClusters pts maxDist).1 i :=
      (hmid.isRootEq i).mpr hr
    rw [(hrF : parentOf (createClusters pts maxDist).1 i = i),
      rootOf_of_isRoot (mergedState_wf pts (maxDist ^ 2)) hi hr]
  · exact hmid.compressed i hi hi hr

/-- getMergedVertexIndex computes the dense rank of the vertex's root. -/
theorem createClusters_gmvi (pts : List Pt) (maxDist : ℚ) {i : Nat}
    (hi : i < pts.length) :
    getMergedVertexIndex (createClusters pts maxDist).1 i =
      cntBelow (mergedState pts (maxDist ^ 2))
        (rootOf (mergedState pts (maxDist ^ 2)) pts.length i) := by
  have hmid := midInv_createClusters pts maxDist
  unfold getMergedVertexIndex
  rw [createClusters_parent pts maxDist hi]
  exact hmid.vtx (rootOf (mergedState pts (maxDist ^ 2)) pts.length i)
    (rootOf_lt (mergedState_wf pts (maxDist ^ 2)) hi)
    (rootOf_isRoot (mergedState_wf pts (maxDist ^ 2)) hi)

theorem createClusters_numClusters (pts : List Pt) (maxDist : ℚ) :
    (createClusters pts maxDist).2 =
      cntBelow (mergedState pts (maxDist ^ 2)) pts.length :=
  (midInv_createClusters pts maxDist).counter

theorem createClusters_rootList (pts : List Pt) (maxDist : ℚ) :
    rootClustersList (createClusters pts maxDist).1 pts.length =
      rootClustersList (mergedState pts (maxDist ^ 2)) pts.length := by
  unfold rootClustersList
  refine List.filter_congr ?_
  intro i _
  exact decide_eq_decide.mpr
    ((midInv_createClusters pts maxDist).isRootEq i)

theorem rootClustersList_length (cs : CState) (n : Nat) :
    (rootClustersList cs n).length = cntBelow cs n := rfl

theorem getD_map_default {α : Type} [Inhabited α] (l : List Nat)
    (f : Nat → α) {m : Nat} (h : m < l.length) :
    (l.map f).getD m default = f (l.getD m 0) := by
  simp [List.getD, List.getElem?_map, List.getElem?_eq_getElem, h]

/-- The `m`-th root cluster: in range, a root, and of dense rank `m`. -/
theorem createClusters_govi (pts : List Pt) (maxDist : ℚ) {m : Nat}
    (hm : m < (createClusters pts maxDist).2) :
    getOriginalVertexIndex (createClusters pts maxDist).1 pts.length m <
        pts.length ∧
      isRoot (mergedState pts (maxDist ^ 2))
        (getOriginalVertexIndex (createClusters pts maxDist).1 pts.length m) ∧
      cntBelow (mergedState pts (maxDist ^ 2))
        (getOriginalVertexIndex (createClusters pts maxDist).1 pts.length m)
        = m := by
  have hK := createClusters_numClusters pts maxDist
  have hm' : m < ((List.range pts.length).filter
      (fun j => decide (parentOf (mergedState pts (maxDist ^ 2)) j = j))).length := by
    have hcb : m < cntBelow (mergedState pts (maxDist ^ 2)) pts.length := by
      omega
    exact hcb
  obtain ⟨h1, h2, h3⟩ := filterRange_getD hm'
  have hgd : getOriginalVertexIndex (createClusters pts maxDist).1 pts.length m =
      ((List.range pts.length).filter
        (fun j => decide (parentOf (mergedState pts (maxDist ^ 2)) j = j))).getD m 0 := by
    unfold getOriginalVertexIndex
    rw [createClusters_rootList pts maxDist]
    rfl
  rw [hgd]
  exact ⟨h2, of_decide_eq_true h1, h3⟩

/-- The witness original vertex of merged vertex `m` maps back to `m`. -/
theorem createClusters_gmvi_govi (pts : List Pt) (maxDist : ℚ) {m : Nat}
    (hm : m < (createClusters pts maxDist).2) :
    getMergedVertexIndex (createClusters pts maxDist).1
      (getOriginalVertexIndex (createClusters pts maxDist).1 pts.length m)
      = m := by
  obtain ⟨hlt, hroot, hcnt⟩ := createClusters_govi pts maxDist hm
  rw [createClusters_gmvi pts maxDist hlt,
    rootOf_of_isRoot (mergedState_wf pts (maxDist ^ 2)) hlt hroot]
  exact hcnt

/-- Every merged vertex index is below the cluster count. -/
theorem createClusters_gmvi_lt (pts : List Pt) (maxDist : ℚ) {i : Nat}
    (hi : i < pts.length) :
    getMergedVertexIndex (createClusters pts maxDist).1 i <
      (createClusters pts maxDist).2 := by
  rw [createClusters_gmvi pts maxDist hi, createClusters_numClusters]
  exact cntBelow_strict (mergedState pts (maxDist ^ 2))
    (rootOf_isRoot (mergedState_wf pts (maxDist ^ 2)) hi)
    (rootOf_lt (mergedState_wf pts (maxDist ^ 2)) hi)

/-- Two vertices receive the same merged index iff their merge-phase roots
agree. -/
theorem createClusters_gmvi_eq_iff (pts : List Pt) (maxDist : ℚ) {i j : Nat}
    (hi : i < pts.length) (hj : j < pts.length) :
    (getMergedVertexIndex (createClusters pts maxDist).1 i =
      getMergedVertexIndex (createClusters pts maxDist).1 j) ↔
    rootOf (mergedState pts (maxDist ^ 2)) pts.length i =
      rootOf (mergedState pts (maxDist ^ 2)) pts.length j := by
  rw [createClusters_gmvi pts maxDist hi, createClusters_gmvi pts maxDist hj]
  constructor
  · intro h
    exact cntBelow_inj (mergedState pts (maxDist ^ 2))
      (rootOf_isRoot (mergedState_wf pts (maxDist ^ 2)) hi)
      (rootOf_isRoot (mergedState_wf pts (maxDist ^ 2)) hj) h
  · intro h
    rw [h]

/-- The merged-index class of `m` coincides with the member set of the
`m`-th root. -/
theorem createClusters_classSet (pts : List Pt) (maxDist : ℚ) {m : Nat}
    (hm : m < (createClusters pts maxDist).2) :
    (Finset.range pts.length).filter
        (fun a => getMergedVertexIndex (createClusters pts maxDist).1 a = m) =
      memberSet pts (mergedState pts (maxDist ^ 2))
        (getOriginalVertexIndex (createClusters pts maxDist).1 pts.length m) := by
  obtain ⟨hlt, hroot, hcnt⟩ := createClusters_govi pts maxDist hm
  ext a
  simp only [memberSet, Finset.mem_filter, Finset.mem_range]
  constructor
  · rintro ⟨ha, hval⟩
    refine ⟨ha, ?_⟩
    rw [createClusters_gmvi pts maxDist ha] at hval
    exact cntBelow_inj (mergedState pts (maxDist ^ 2))
      (rootOf_isRoot (mergedState_wf pts (maxDist ^ 2)) ha) hroot
      (hval.trans hcnt.symm)
  · rintro ⟨ha, hval⟩
    refine ⟨ha, ?_⟩
    rw [createClusters_gmvi pts maxDist ha, hval]
    exact hcnt

/-- The `m`-th merged vertex position is the accumulated centroid over the
accumulated weight, which equal the member-position sum and member count. -/
theorem createClusters_position (pts : List Pt) (maxDist : ℚ) {m : Nat}
    (hm : m < (createClusters pts maxDist).2) :
    (retrieveMergedVertices (createClusters pts maxDist).1 pts.length).getD m
        default =
      Pt.divBy
        ⟨∑ a in memberSet pts (mergedState pts (maxDist ^ 2))
            (getOriginalVertexIndex (createClusters pts maxDist).1 pts.length m),
            (ptAt pts a).x,
         ∑ a in memberSet pts (mergedState pts (maxDist ^ 2))
            (getOriginalVertexIndex (createClusters pts maxDist).1 pts.length m),
            (ptAt pts a).y,
         ∑ a in memberSet pts (mergedState pts (maxDist ^ 2))
            (getOriginalVertexIndex (createClusters pts maxDist).1 pts.length m),
            (ptAt pts a).z⟩
        ((memberSet pts (mergedState pts (maxDist ^ 2))
          (getOriginalVertexIndex (createClusters pts maxDist).1 pts.length m)).card
          : ℚ) := by
  obtain ⟨hlt, hroot, hcnt⟩ := createClusters_govi pts maxDist hm
  have hmid := midInv_createClusters pts maxDist
  have hm' : m < (rootClustersList (createClusters pts maxDist).1
      pts.length).length := by
    rw [createClusters_rootList pts maxDist, rootClustersList_length]
    have := createClusters_numClusters pts maxDist
    omega
  unfold retrieveMergedVertices
  have hmap : ((rootClustersList (createClusters pts maxDist).1 pts.length).map
      (fun ρ => Pt.divBy ((createClusters pts maxDist).1 ρ).centroidAcc
        ((createClusters pts maxDist).1 ρ).centroidWeight)).getD m default =
      Pt.divBy ((createClusters pts maxDist).1
          (getOriginalVertexIndex (createClusters pts maxDist).1 pts.length m)).centroidAcc
        ((createClusters pts maxDist).1
          (getOriginalVertexIndex (createClusters pts maxDist).1 pts.length m)).centroidWeight := by
    exact getD_map_default _ _ hm'
  rw [hmap]
  obtain ⟨hacc, hw⟩ := hmid.fields
    (getOriginalVertexIndex (createClusters pts maxDist).1 pts.length m)
  rw [hacc, hw]
  obtain ⟨hx, hy, hz, hwgt⟩ := mergedState_centroid pts (maxDist ^ 2)
    (getOriginalVertexIndex (createClusters pts maxDist).1 pts.length m)
    hlt hroot
  rw [hwgt]
  show Pt.divBy _ _ = _
  congr 1
  · show (mergedState pts (maxDist ^ 2)
      (getOriginalVertexIndex (createClusters pts maxDist).1 pts.length m)).centroidAcc = _
    cases hA : (mergedState pts (maxDist ^ 2)
      (getOriginalVertexIndex (createClusters pts maxDist).1 pts.length m)).centroidAcc
    rw [hA] at hx hy hz
    simp only at hx hy hz
    rw [hx, hy, hz]

/-! ### VTKFile::read — merged-mesh construction -/

/-- VTKFile::read vertex-property copy (VTKFile.cpp lines 104-128): one
value slice per property component, slices stored consecutively; each
merged vertex's value is copied from the single witness original vertex
`getOriginalVertexIndex(vi)`:
`originalComponents[vertexIndex*numComponents+componentIndex]`. -/
def vertexPropertySlices (cs : CState) (n K numComponents : Nat)
    (originalComponents : List ℚ) : List ℚ :=
  (List.range numComponents).flatMap (fun componentIndex =>
    (List.range K).map (fun vi =>
      originalComponents.getD
        (getOriginalVertexIndex cs n vi * numComponents + componentIndex) 0))

/-- VTKFile::read cell-connectivity remap (VTKFile.cpp lines 131-136):
`cellVertexIndices[k] = clusterer.getMergedVertexIndex(raw[k])`. -/
def remapCellVertexIndices (cs : CState) (raw : List Nat) : List Nat :=
  raw.map (fun cvi => getMergedVertexIndex cs cvi)

theorem flatMapBlocks_getD (f : Nat → Nat → ℚ) (K : Nat) :
    ∀ (l : List Nat) (c m : Nat), c < l.length → m < K →
      ((l.flatMap (fun ci => (List.range K).map (fun vi => f ci vi))).getD
        (c * K + m) 0) = f (l.getD c 0) m := by
  intro l
  induction l with
  | nil =>
    intro c m hc
    simp at hc
  | cons c0 rest ih =>
    intro c m hc hm
    show (((List.range K).map (fun vi => f c0 vi)) ++
      rest.flatMap (fun ci => (List.range K).map (fun vi => f ci vi))).getD
        (c * K + m) 0 = _
    rcases Nat.eq_zero_or_pos c with rfl | hcpos
    · rw [Nat.zero_mul, Nat.zero_add,
        List.getD_append _ _ 0 m (by simpa using hm)]
      have : ((List.range K).map (fun vi => f c0 vi)).getD m default =
          f c0 ((List.range K).getD m 0) := by
        exact getD_map_default _ _ (by simpa using hm)
      rw [(by simp [List.getD, List.getElem?_range, hm] :
        (List.range K).getD m 0 = m)] at this
      exact this
    · obtain ⟨c', rfl⟩ : ∃ c', c = c' + 1 :=
        ⟨c - 1, by omega⟩
      have hidx : (c' + 1) * K + m =
          ((List.range K).map (fun vi => f c0 vi)).length + (c' * K + m) := by
        simp [List.length_map, List.length_range]
        ring
      rw [hidx]
      have happ : ∀ (l1 l2 : List ℚ) (k : Nat),
          (l1 ++ l2).getD (l1.length + k) 0 = l2.getD k 0 := by
        intro l1 l2 k
        simp [List.getD, List.getElem?_append_right]
      rw [happ]
      have hc' : c' < rest.length := by simpa using hc
      rw [ih c' m hc' hm]
      rfl

/-! ### Claim theorems: vertex clustering -/

/-- C1: for every input point set and every tolerance maxDist ≥ 0, after
createClusters(maxDist) two raw vertices are assigned the same canonical
index via getMergedVertexIndex iff they are connected by a transitive
chain of points with consecutive pairwise squared distances ≤ maxDist²
(equivalently, distances ≤ maxDist, as maxDist ≥ 0) — single-linkage
connected components.  The particular A,B,C instance of the claim is the
case pts = [A,B,C] of this equivalence. -/
theorem C1_single_linkage_clusters (pts : List Pt) (maxDist : ℚ)
    (hmd : 0 ≤ maxDist) {i j : Nat} (hi : i < pts.length)
    (hj : j < pts.length) :
    (getMergedVertexIndex (createClusters pts maxDist).1 i =
      getMergedVertexIndex (createClusters pts maxDist).1 j) ↔
    Linked pts (maxDist ^ 2) i j := by
  rw [createClusters_gmvi_eq_iff pts maxDist hi hj]
  exact mergedState_rootOf_iff hi hj

theorem C1_single_linkage_clusters_witness :
    (0 : ℚ) ≤ 1 ∧ 0 < ([⟨0,0,0⟩, ⟨1,0,0⟩] : List Pt).length ∧
      1 < ([⟨0,0,0⟩, ⟨1,0,0⟩] : List Pt).length ∧
      ((getMergedVertexIndex
          (createClusters ([⟨0,0,0⟩, ⟨1,0,0⟩] : List Pt) 1).1 0 =
        getMergedVertexIndex
          (createClusters ([⟨0,0,0⟩, ⟨1,0,0⟩] : List Pt) 1).1 1) ↔
      Linked ([⟨0,0,0⟩, ⟨1,0,0⟩] : List Pt) (1 ^ 2) 0 1) :=
  ⟨by decide, by decide, by decide,
    C1_single_linkage_clusters ([⟨0,0,0⟩, ⟨1,0,0⟩] : List Pt) 1 (by decide)
      (by decide) (by decide)⟩

/-- C7: after createClusters, getMergedVertexIndex (a total function on
original indices, in the embedding a Lean function) maps every original
vertex below the canonical count, and every canonical index in
[0, numClusters) is attained — the image is exactly [0, canonicalCount),
dense and 0-based. -/
theorem C7_total_dense_image (pts : List Pt) (maxDist : ℚ) :
    (∀ i, i < pts.length →
      getMergedVertexIndex (createClusters pts maxDist).1 i <
        (createClusters pts maxDist).2) ∧
    (∀ m, m < (createClusters pts maxDist).2 → ∃ i, i < pts.length ∧
      getMergedVertexIndex (createClusters pts maxDist).1 i = m) :=
  ⟨fun i hi => createClusters_gmvi_lt pts maxDist hi,
   fun m hm =>
    ⟨getOriginalVertexIndex (createClusters pts maxDist).1 pts.length m,
      (createClusters_govi pts maxDist hm).1,
      createClusters_gmvi_govi pts maxDist hm⟩⟩

theorem C7_total_dense_image_witness :
    (0 < ([⟨0,0,0⟩] : List Pt).length →
      getMergedVertexIndex (createClusters ([⟨0,0,0⟩] : List Pt) 0).1 0 <
        (createClusters ([⟨0,0,0⟩] : List Pt) 0).2) ∧
    (0 < (createClusters ([⟨0,0,0⟩] : List Pt) 0).2 →
      ∃ i, i < ([⟨0,0,0⟩] : List Pt).length ∧
        getMergedVertexIndex (createClusters ([⟨0,0,0⟩] : List Pt) 0).1 i
          = 0) :=
  ⟨fun h => (C7_total_dense_image ([⟨0,0,0⟩] : List Pt) 0).1 0 h,
   fun h => (C7_total_dense_image ([⟨0,0,0⟩] : List Pt) 0).2 0 h⟩

/-- C2: the output position of every canonical vertex is the exact
arithmetic mean of all raw points merged into its cluster (accumulated
centroid sum divided by accumulated weight, a nonempty member set), while
each per-vertex property value is the value of the one witness original
vertex returned by getOriginalVertexIndex — a representative copy, never
an average of the merged vertices' values; the witness vertex belongs to
the cluster. -/
theorem C2_mean_positions_representative_properties (pts : List Pt)
    (maxDist : ℚ) (numComponents : Nat) (originalComponents : List ℚ)
    {m c : Nat} (hm : m < (createClusters pts maxDist).2)
    (hc : c < numComponents) :
    ((retrieveMergedVertices (createClusters pts maxDist).1
        pts.length).getD m default =
      Pt.divBy
        ⟨∑ a in (Finset.range pts.length).filter
            (fun a => getMergedVertexIndex (createClusters pts maxDist).1 a
              = m), (ptAt pts a).x,
         ∑ a in (Finset.range pts.length).filter
            (fun a => getMergedVertexIndex (createClusters pts maxDist).1 a
              = m), (ptAt pts a).y,
         ∑ a in (Finset.range pts.length).filter
            (fun a => getMergedVertexIndex (createClusters pts maxDist).1 a
              = m), (ptAt pts a).z⟩
        (((Finset.range pts.length).filter
            (fun a => getMergedVertexIndex (createClusters pts maxDist).1 a
              = m)).card : ℚ)) ∧
    ((Finset.range pts.length).filter
        (fun a => getMergedVertexIndex (createClusters pts maxDist).1 a
          = m)).card ≠ 0 ∧
    ((vertexPropertySlices (createClusters pts maxDist).1 pts.length
        (createClusters pts maxDist).2 numComponents
        originalComponents).getD
        (c * (createClusters pts maxDist).2 + m) 0 =
      originalComponents.getD
        (getOriginalVertexIndex (createClusters pts maxDist).1 pts.length m
          * numComponents + c) 0) ∧
    getMergedVertexIndex (createClusters pts maxDist).1
      (getOriginalVertexIndex (createClusters pts maxDist).1 pts.length m)
      = m := by
  have hclass := createClusters_classSet pts maxDist hm
  refine ⟨?_, ?_, ?_, createClusters_gmvi_govi pts maxDist hm⟩
  · rw [hclass]
    exact createClusters_position pts maxDist hm
  · rw [hclass]
    have hne : (memberSet pts (mergedState pts (maxDist ^ 2))
        (getOriginalVertexIndex (createClusters pts maxDist).1 pts.length
          m)).Nonempty := by
      obtain ⟨hlt, hroot, _⟩ := createClusters_govi pts maxDist hm
      refine ⟨getOriginalVertexIndex (createClusters pts maxDist).1
        pts.length m, ?_⟩
      simp only [memberSet, Finset.mem_filter, Finset.mem_range]
      exact ⟨hlt, rootOf_of_isRoot (mergedState_wf pts (maxDist ^ 2))
        hlt hroot⟩
    exact Finset.card_ne_zero_of_mem hne.choose_spec
  · unfold vertexPropertySlices
    have hKlen : (createClusters pts maxDist).2 > m := hm
    exact (by
      have := flatMapBlocks_getD
        (fun ci vi => originalComponents.getD
          (getOriginalVertexIndex (createClusters pts maxDist).1 pts.length
            vi * numComponents + ci) 0)
        (createClusters pts maxDist).2 (List.range numComponents) c m
        (by simpa using hc) hm
      rw [(by simp [List.getD, List.getElem?_range, hc] :
        (List.range numComponents).getD c 0 = c)] at this
      exact this)

theorem C2_witness :
    0 < (createClusters ([⟨0,0,0⟩] : List Pt) 0).2 ∧ (0 : Nat) < 1 ∧
      getMergedVertexIndex (createClusters ([⟨0,0,0⟩] : List Pt) 0).1
        (getOriginalVertexIndex (createClusters ([⟨0,0,0⟩] : List Pt) 0).1
          ([⟨0,0,0⟩] : List Pt).length 0) = 0 := by
  have hK : 0 < (createClusters ([⟨0,0,0⟩] : List Pt) 0).2 := by decide
  exact ⟨hK, Nat.zero_lt_one,
    (C2_mean_positions_representative_properties ([⟨0,0,0⟩] : List Pt) 0 1
      [(5 : ℚ)] hK Nat.zero_lt_one).2.2.2⟩

/-- C6: every entry of the remapped cell connectivity array is a valid
index strictly below the total canonical vertex count.  (Raw connectivity
entries must reference existing raw vertices; in the C++ source an
out-of-range raw index is an out-of-bounds read of the cluster arena —
undefined behavior, not a successful ingestion.) -/
theorem C6_remapped_connectivity_in_range (pts : List Pt) (maxDist : ℚ)
    (raw : List Nat) (hraw : ∀ x ∈ raw, x < pts.length) :
    ∀ y ∈ remapCellVertexIndices (createClusters pts maxDist).1 raw,
      y < (createClusters pts maxDist).2 := by
  intro y hy
  obtain ⟨x, hx, rfl⟩ := List.mem_map.mp hy
  exact createClusters_gmvi_lt pts maxDist (hraw x hx)

theorem C6_remapped_connectivity_in_range_witness :
    (∀ x ∈ [0, 0, 0], x < ([⟨0,0,0⟩] : List Pt).length) ∧
      ∀ y ∈ remapCellVertexIndices
        (createClusters ([⟨0,0,0⟩] : List Pt) 0).1 [0, 0, 0],
        y < (createClusters ([⟨0,0,0⟩] : List Pt) 0).2 :=
  ⟨by decide,
    C6_remapped_connectivity_in_range ([⟨0,0,0⟩] : List Pt) 0 [0, 0, 0]
      (by decide)⟩

/-! ### VTKCDataParser — ASCII numeric parsing from character data -/

/-- Error kinds thrown by VTKCDataParser (std::runtime_error; the kind
and the throwing routine are the contract, not the exact text). -/
inductive ParseErr
  | invalidChar (who : String)
  | missingWs
deriving DecidableEq

instance {ε α : Type} [DecidableEq ε] [DecidableEq α] :
    DecidableEq (Except ε α) := fun a b =>
  match a, b with
  | .ok x, .ok y =>
    if h : x = y then isTrue (by rw [h])
    else isFalse (by intro hc; cases hc; exact h rfl)
  | .error e, .error f =>
    if h : e = f then isTrue (by rw [h])
    else isFalse (by intro hc; cases hc; exact h rfl)
  | .ok _, .error _ => isFalse (by intro hc; cases hc)
  | .error _, .ok _ => isFalse (by intro hc; cases hc)

/-- Parser state: the one-character lookahead `lastChar` (none once the
character-data segment is exhausted, the `readCharacterData() < 0`
sentinel) and the remaining characters of the segment. -/
structure PState where
  lastChar : Option Char
  rest : List Char
deriving DecidableEq

/-- xml.readCharacterData(): the next character, or the end sentinel. -/
def readCD : List Char → Option Char × List Char
  | [] => (none, [])
  | c :: cs => (some c, cs)

/-- IO::XMLSource::isSpace (external library): XML whitespace. -/
def isSpace (c : Char) : Bool :=
  c == ' ' || c == '\t' || c == '\n' || c == '\r'

def isDigit (c : Char) : Bool := '0' ≤ c && c ≤ '9'

def digitVal (c : Char) : Nat := c.toNat - '0'.toNat

/-- The whitespace-skipping loop of VTKCDataParser::skipWs. -/
def skipWsLoop : Option Char → List Char → Option Char × List Char
  | some c, rest =>
    if isSpace c then
      match rest with
      | [] => (none, [])
      | d :: rest' => skipWsLoop (some d) rest'
    else (some c, rest)
  | none, rest => (none, rest)

/-- VTKCDataParser::skipWs(mustHaveWhitespace): fatal "Missing required
whitespace" when required and the lookahead is a non-space character;
otherwise skip whitespace. -/
def skipWs (mustHaveWhitespace : Bool) (st : PState) :
    Except ParseErr PState :=
  match st.lastChar with
  | some c =>
    if mustHaveWhitespace && !isSpace c then .error .missingWs
    else
      let p := skipWsLoop (some c) st.rest
      .ok ⟨p.1, p.2⟩
  | none => .ok st

/-- The digit-accumulation loop of readUnsignedInteger; Misc::UInt64
arithmetic wraps modulo 2^64. -/
def readDigitsU : Nat → Bool → Option Char → List Char →
    Nat × Bool × PState
  | acc, haveD, some c, rest =>
    if isDigit c then
      match rest with
      | [] => ((acc * 10 + digitVal c) % 2 ^ 64, true, ⟨none, []⟩)
      | d :: rest' =>
        readDigitsU ((acc * 10 + digitVal c) % 2 ^ 64) true (some d) rest'
    else (acc, haveD, ⟨some c, rest⟩)
  | acc, haveD, none, rest => (acc, haveD, ⟨none, rest⟩)

/-- The digit-accumulation loop of readInteger (Misc::SInt64; signed
overflow is undefined behavior in the source, embedded as unbounded
integers). -/
def readDigitsI : Int → Bool → Option Char → List Char →
    Int × Bool × PState
  | acc, haveD, some c, rest =>
    if isDigit c then
      match rest with
      | [] => (acc * 10 + (digitVal c : Int), true, ⟨none, []⟩)
      | d :: rest' =>
        readDigitsI (acc * 10 + (digitVal c : Int)) true (some d) rest'
    else (acc, haveD, ⟨some c, rest⟩)
  | acc, haveD, none, rest => (acc, haveD, ⟨none, rest⟩)

/-- VTKCDataParser::readUnsignedInteger before its final whitespace
check: digit sequence (≥ 1 digit, else "Invalid character"). -/
def readUnsignedIntegerBody (st : PState) :
    Except ParseErr (Nat × PState) :=
  let r := readDigitsU 0 false st.lastChar st.rest
  if r.2.1 = false then .error (.invalidChar "readUnsignedInteger")
  else .ok (r.1, r.2.2)

/-- VTKCDataParser::readUnsignedInteger: digits, then mandatory
whitespace (or end of segment). -/
def readUnsignedInteger (st : PState) : Except ParseErr (Nat × PState) :=
  match readUnsignedIntegerBody st with
  | .error e => .error e
  | .ok (v, st₁) =>
    match skipWs true st₁ with
    | .error e => .error e
    | .ok st₂ => .ok (v, st₂)

/-- VTKCDataParser::readInteger after the optional sign and before its
final whitespace check. -/
def readIntegerBody (negate : Bool) (lc : Option Char) (rest : List Char) :
    Except ParseErr (Int × PState) :=
  let r := readDigitsI 0 false lc rest
  if r.2.1 = false then .error (.invalidChar "readInteger")
  else .ok (if negate then -r.1 else r.1, r.2.2)

/-- VTKCDataParser::readInteger before its final whitespace check:
optional '+'/'-' sign (consumed, remembering negation), then digits. -/
def readIntegerSigned (st : PState) : Except ParseErr (Int × PState) :=
  if st.lastChar == some '-' || st.lastChar == some '+' then
    readIntegerBody (st.lastChar == some '-') (readCD st.rest).1
      (readCD st.rest).2
  else
    readIntegerBody (st.lastChar == some '-') st.lastChar st.rest

/-- VTKCDataParser::readInteger: optional '+'/'-' sign, digits, negation,
then mandatory whitespace (or end of segment). -/
def readInteger (st : PState) : Except ParseErr (Int × PState) :=
  match readIntegerSigned st with
  | .error e => .error e
  | .ok (v, st₁) =>
    match skipWs true st₁ with
    | .error e => .error e
    | .ok st₂ => .ok (v, st₂)

/-- The integral-part digit loop of readFloat (Misc::Float64 accumulation
idealized as exact rationals). -/
def readDigitsQ : ℚ → Bool → Option Char → List Char →
    ℚ × Bool × PState
  | acc, haveD, some c, rest =>
    if isDigit c then
      match rest with
      | [] => (acc * 10 + (digitVal c : ℚ), true, ⟨none, []⟩)
      | d :: rest' =>
        readDigitsQ (acc * 10 + (digitVal c : ℚ)) true (some d) rest'
    else (acc, haveD, ⟨some c, rest⟩)
  | acc, haveD, none, rest => (acc, haveD, ⟨none, rest⟩)

/-- The fractional-part digit loop of readFloat: accumulates the fraction
value and the fraction base (powers of ten). -/
def readFracDigits : ℚ → ℚ → Bool → Option Char → List Char →
    ℚ × ℚ × Bool × PState
  | frac, base, haveD, some c, rest =>
    if isDigit c then
      match rest with
      | [] => (frac * 10 + (digitVal c : ℚ), base * 10, true, ⟨none, []⟩)
      | d :: rest' =>
        readFracDigits (frac * 10 + (digitVal c : ℚ)) (base * 10) true
          (some d) rest'
    else (frac, base, haveD, ⟨some c, rest⟩)
  | frac, base, haveD, none, rest => (frac, base, haveD, ⟨none, rest⟩)

/-- The exponent digit loop of readFloat. -/
def readDigitsN : Nat → Option Char → List Char → Nat × PState
  | acc, some c, rest =>
    if isDigit c then
      match rest with
      | [] => (acc * 10 + digitVal c, ⟨none, []⟩)
      | d :: rest' => readDigitsN (acc * 10 + digitVal c) (some d) rest'
    else (acc, ⟨some c, rest⟩)
  | acc, none, rest => (acc, ⟨none, rest⟩)

/-- VTKCDataParser::readFloat before its final whitespace check: optional
sign, integral part, optional fraction, ≥ 1 digit overall, negation,
optional exponent (which itself requires ≥ 1 digit). -/
def readFloatBody (st : PState) : Except ParseErr (ℚ × PState) :=
  let negate := st.lastChar == some '-'
  let p :=
    if st.lastChar == some '-' || st.lastChar == some '+' then
      readCD st.rest
    else (st.lastChar, st.rest)
  let ri := readDigitsQ 0 false p.1 p.2
  let fr :=
    if ri.2.2.lastChar == some '.' then
      let q := readCD ri.2.2.rest
      let rf := readFracDigits 0 1 ri.2.1 q.1 q.2
      (ri.1 + rf.1 / rf.2.1, rf.2.2.1, rf.2.2.2)
    else (ri.1, ri.2.1, ri.2.2)
  if fr.2.1 = false then .error (.invalidChar "readFloat")
  else
    let result := if negate then -fr.1 else fr.1
    if fr.2.2.lastChar == some 'e' || fr.2.2.lastChar == some 'E' then
      let q := readCD fr.2.2.rest
      let negExp := q.1 == some '-'
      let q2 :=
        if q.1 == some '-' || q.1 == some '+' then readCD q.2 else q
      match q2.1 with
      | some c =>
        if isDigit c then
          let re := readDigitsN 0 (some c) q2.2
          .ok (result * (if negExp then (1 / 10 : ℚ) ^ re.1
            else (10 : ℚ) ^ re.1), re.2)
        else .error (.invalidChar "readFloat")
      | none => .error (.invalidChar "readFloat")
    else .ok (result, fr.2.2)

/-- VTKCDataParser::readFloat: the numeric grammar above, then mandatory
whitespace (or end of segment). -/
def readFloat (st : PState) : Except ParseErr (ℚ × PState) :=
  match readFloatBody st with
  | .error e => .error e
  | .ok (v, st₁) =>
    match skipWs true st₁ with
    | .error e => .error e
    | .ok st₂ => .ok (v, st₂)

/-- The per-value ascii parse routine selected by
VTKFileReader::readDataArray (lines 193-209) for an integer-typed
DataArray: the dispatch is crosswise — for an unsigned declared type the
loop reads every element with readInteger, for a signed declared type
with readUnsignedInteger (values converted to the array scalar type). -/
def readAsciiIntegerValue (unsignedType : Bool) (st : PState) :
    Except ParseErr (Int × PState) :=
  if unsignedType then
    readInteger st
  else
    match readUnsignedInteger st with
    | .error e => .error e
    | .ok (v, st') => .ok ((v : Int), st')

/-! ### Claim theorems: numeric parsing -/

theorem readDigitsI_keep : ∀ (rest : List Char) (acc : Int)
    (lc : Option Char), (readDigitsI acc true lc rest).2.1 = true := by
  intro rest
  induction rest with
  | nil =>
    intro acc lc
    match lc with
    | none => rfl
    | some c =>
      simp only [readDigitsI]
      split <;> rfl
  | cons d r' ih =>
    intro acc lc
    match lc with
    | none => rfl
    | some c =>
      simp only [readDigitsI]
      split
      · exact ih _ _
      · rfl

theorem skipWs_error_eq {st : PState} {e : ParseErr}
    (h : skipWs true st = .error e) : e = ParseErr.missingWs := by
  unfold skipWs at h
  split at h
  · split at h
    · exact (Except.error.inj h).symm
    · exact Except.noConfusion h
  · exact Except.noConfusion h

/-- C9 (implicit, from code): the ascii integer-parsing dispatch of
readDataArray is crosswise.  An unsigned declared type (UInt8/16/32/64)
selects the signed routine readInteger, so a leading '+' or '-' on a
value is consumed and, followed by a digit, never produces an "Invalid
character" error; a signed declared type (Int8/16/32/64) selects the
unsigned routine readUnsignedInteger, for which any value beginning with
a sign character fails immediately with "Invalid character". -/
theorem C9_crosswise_integer_dispatch :
    (∀ st, readAsciiIntegerValue true st = readInteger st) ∧
    (∀ st, readAsciiIntegerValue false st =
      match readUnsignedInteger st with
      | .error e => .error e
      | .ok (v, st') => .ok ((v : Int), st')) ∧
    (∀ c rest, (c = '+' ∨ c = '-') →
      readIntegerSigned ⟨some c, rest⟩ =
        readIntegerBody (c == '-') (readCD rest).1 (readCD rest).2) ∧
    (∀ c d rest, (c = '+' ∨ c = '-') → isDigit d = true →
      ∀ who, readInteger ⟨some c, d :: rest⟩ ≠ .error (.invalidChar who)) ∧
    (∀ c rest, (c = '+' ∨ c = '-') →
      readUnsignedInteger ⟨some c, rest⟩ =
        .error (.invalidChar "readUnsignedInteger")) := by
  refine ⟨fun st => rfl, fun st => rfl, ?_, ?_, ?_⟩
  · intro c rest hc
    rcases hc with rfl | rfl <;> rfl
  · intro c d rest hc hd who hcontra
    have hsign : readIntegerSigned ⟨some c, d :: rest⟩ =
        readIntegerBody (c == '-') (some d) rest := by
      rcases hc with rfl | rfl <;> rfl
    have hkeep : (readDigitsI 0 false (some d) rest).2.1 = true := by
      unfold readDigitsI
      rw [if_pos hd]
      match rest with
      | [] => rfl
      | e :: r' => exact readDigitsI_keep r' _ (some e)
    have hbody : readIntegerBody (c == '-') (some d) rest =
        .ok ((if (c == '-') then
          -(readDigitsI 0 false (some d) rest).1
          else (readDigitsI 0 false (some d) rest).1),
          (readDigitsI 0 false (some d) rest).2.2) := by
      simp only [readIntegerBody]
      rw [hkeep]
      rfl
    have hred : readInteger ⟨some c, d :: rest⟩ =
        match skipWs true (readDigitsI 0 false (some d) rest).2.2 with
        | .error e => .error e
        | .ok st₂ => .ok ((if (c == '-') then
            -(readDigitsI 0 false (some d) rest).1
            else (readDigitsI 0 false (some d) rest).1), st₂) := by
      unfold readInteger
      rw [hsign, hbody]
    rw [hred] at hcontra
    rcases hsw : skipWs true (readDigitsI 0 false (some d) rest).2.2 with
      e | st₂
    · rw [hsw] at hcontra
      have he : e = ParseErr.invalidChar who := by
        have h2 : (Except.error e : Except ParseErr (Int × PState)) =
            .error (.invalidChar who) := hcontra
        cases h2
        rfl
      -- skipWs can only fail with the missing-whitespace error
      have hmw : e = ParseErr.missingWs := skipWs_error_eq hsw
      rw [hmw] at he
      cases he
    · rw [hsw] at hcontra
      have h2 : (Except.ok ((if (c == '-') then
          -(readDigitsI 0 false (some d) rest).1
          else (readDigitsI 0 false (some d) rest).1), st₂) :
            Except ParseErr (Int × PState)) =
          .error (.invalidChar who) := hcontra
      cases h2
  · intro c rest hc
    rcases hc with rfl | rfl <;> rcases rest with _ | ⟨d, r⟩ <;> rfl

theorem C9_crosswise_integer_dispatch_witness :
    readAsciiIntegerValue true ⟨some '-', ['7', ' ']⟩ =
        readInteger ⟨some '-', ['7', ' ']⟩ ∧
      ('-' = '+' ∨ '-' = '-') ∧ isDigit '7' = true ∧
      readInteger ⟨some '-', '7' :: [' ']⟩ ≠
        .error (.invalidChar "readInteger") ∧
      readUnsignedInteger ⟨some '-', ['7', ' ']⟩ =
        .error (.invalidChar "readUnsignedInteger") :=
  ⟨C9_crosswise_integer_dispatch.1 ⟨some '-', ['7', ' ']⟩,
    Or.inr rfl, by decide,
    C9_crosswise_integer_dispatch.2.2.2.1 '-' '7' [' ']
      (Or.inr rfl) (by decide) "readInteger",
    C9_crosswise_integer_dispatch.2.2.2.2 '-' ['7', ' '] (Or.inr rfl)⟩

theorem skipWs_req_fail {st : PState} {c : Char}
    (h : st.lastChar = some c) (hc : isSpace c = false) :
    skipWs true st = .error .missingWs := by
  obtain ⟨lc, rest⟩ := st
  simp only at h
  subst h
  show skipWs true ⟨some c, rest⟩ = .error .missingWs
  simp only [skipWs]
  rw [if_pos (by simp [hc])]

theorem skipWs_req_ok {st : PState}
    (h : st.lastChar = none ∨ ∃ c, st.lastChar = some c ∧ isSpace c = true) :
    ∃ st', skipWs true st = .ok st' := by
  obtain ⟨lc, rest⟩ := st
  rcases h with h | ⟨c, h, hc⟩
  · simp only at h
    subst h
    exact ⟨⟨none, rest⟩, rfl⟩
  · simp only at h
    subst h
    refine ⟨⟨(skipWsLoop (some c) rest).1, (skipWsLoop (some c) rest).2⟩, ?_⟩
    simp only [skipWs]
    rw [if_neg (by simp [hc])]

/-- C10: after every numeric token (unsigned integer, integer, or float)
one whitespace character or the end of the segment is mandatory: when the
token itself parses but is followed by a non-space character the reader
fails with the "Missing required whitespace" error, and when it is
followed by whitespace or the segment end the reader succeeds with the
token's value. -/
theorem C10_mandatory_whitespace :
    (∀ st v st₁, readUnsignedIntegerBody st = .ok (v, st₁) →
      (∀ c, st₁.lastChar = some c → isSpace c = false →
        readUnsignedInteger st = .error .missingWs) ∧
      ((st₁.lastChar = none ∨
          ∃ c, st₁.lastChar = some c ∧ isSpace c = true) →
        ∃ st₂, readUnsignedInteger st = .ok (v, st₂))) ∧
    (∀ st v st₁, readIntegerSigned st = .ok (v, st₁) →
      (∀ c, st₁.lastChar = some c → isSpace c = false →
        readInteger st = .error .missingWs) ∧
      ((st₁.lastChar = none ∨
          ∃ c, st₁.lastChar = some c ∧ isSpace c = true) →
        ∃ st₂, readInteger st = .ok (v, st₂))) ∧
    (∀ st v st₁, readFloatBody st = .ok (v, st₁) →
      (∀ c, st₁.lastChar = some c → isSpace c = false →
        readFloat st = .error .missingWs) ∧
      ((st₁.lastChar = none ∨
          ∃ c, st₁.lastChar = some c ∧ isSpace c = true) →
        ∃ st₂, readFloat st = .ok (v, st₂))) := by
  refine ⟨?_, ?_, ?_⟩
  · intro st v st₁ hbody
    constructor
    · intro c hlc hsp
      unfold readUnsignedInteger
      rw [hbody]
      show (match skipWs true st₁ with
        | .error e => (.error e : Except ParseErr (Nat × PState))
        | .ok st₂ => .ok (v, st₂)) = .error .missingWs
      rw [skipWs_req_fail hlc hsp]
    · intro h
      obtain ⟨st₂, hsw⟩ := skipWs_req_ok h
      refine ⟨st₂, ?_⟩
      unfold readUnsignedInteger
      rw [hbody]
      show (match skipWs true st₁ with
        | .error e => (.error e : Except ParseErr (Nat × PState))
        | .ok st₂ => .ok (v, st₂)) = .ok (v, st₂)
      rw [hsw]
  · intro st v st₁ hbody
    constructor
    · intro c hlc hsp
      unfold readInteger
      rw [hbody]
      show (match skipWs true st₁ with
        | .error e => (.error e : Except ParseErr (Int × PState))
        | .ok st₂ => .ok (v, st₂)) = .error .missingWs
      rw [skipWs_req_fail hlc hsp]
    · intro h
      obtain ⟨st₂, hsw⟩ := skipWs_req_ok h
      refine ⟨st₂, ?_⟩
      unfold readInteger
      rw [hbody]
      show (match skipWs true st₁ with
        | .error e => (.error e : Except ParseErr (Int × PState))
        | .ok st₂ => .ok (v, st₂)) = .ok (v, st₂)
      rw [hsw]
  · intro st v st₁ hbody
    constructor
    · intro c hlc hsp
      unfold readFloat
      rw [hbody]
      show (match skipWs true st₁ with
        | .error e => (.error e : Except ParseErr (ℚ × PState))
        | .ok st₂ => .ok (v, st₂)) = .error .missingWs
      rw [skipWs_req_fail hlc hsp]
    · intro h
      obtain ⟨st₂, hsw⟩ := skipWs_req_ok h
      refine ⟨st₂, ?_⟩
      unfold readFloat
      rw [hbody]
      show (match skipWs true st₁ with
        | .error e => (.error e : Except ParseErr (ℚ × PState))
        | .ok st₂ => .ok (v, st₂)) = .ok (v, st₂)
      rw [hsw]

theorem C10_mandatory_whitespace_witness :
    readFloatBody ⟨some '1', ['.', '5', 'x']⟩ =
        .ok ((3 / 2 : ℚ), ⟨some 'x', []⟩) ∧
      readFloat ⟨some '1', ['.', '5', 'x']⟩ = .error .missingWs ∧
      readFloatBody ⟨some '1', ['.', '5', ' ']⟩ =
        .ok ((3 / 2 : ℚ), ⟨some ' ', []⟩) ∧
      (∃ st₂, readFloat ⟨some '1', ['.', '5', ' ']⟩ =
        .ok ((3 / 2 : ℚ), st₂)) := by
  have h1 : readFloatBody ⟨some '1', ['.', '5', 'x']⟩ =
      .ok ((3 / 2 : ℚ), ⟨some 'x', []⟩) := by decide
  have h2 : readFloatBody ⟨some '1', ['.', '5', ' ']⟩ =
      .ok ((3 / 2 : ℚ), ⟨some ' ', []⟩) := by decide
  refine ⟨h1, ?_, h2, ?_⟩
  · exact (C10_mandatory_whitespace.2.2 _ _ _ h1).1 'x' rfl (by decide)
  · exact (C10_mandatory_whitespace.2.2 _ _ _ h2).2
      (Or.inr ⟨' ', rfl, by decide⟩)

/-! ### UnstructuredHexahedralVTKXML::load — corner unswizzling -/

/-- The fixed corner remap table of UnstructuredHexahedralVTKXML::load:
`static const int vertexOrder[8]={0,1,3,2,4,5,7,6};`. -/
def vertexOrder : List Nat := [0, 1, 3, 2, 4, 5, 7, 6]

/-- The unswizzle loop `cellVertices[vertexOrder[i]] = cviPtr[i]` for
i in [0,8): the file's corner stream `cvi` is scattered into canonical
corner slots.  `cellVertices` is uninitialized in the source; every slot
is written because vertexOrder is a permutation, so the initial values
(zeros here) are irrelevant. -/
def unswizzleCell (cvi : Nat → Nat) : List Nat :=
  (List.range 8).foldl
    (fun arr i => arr.set (vertexOrder.getD i 0) (cvi i))
    (List.replicate 8 0)

/-- C8: the file's native hexahedron corner order is remapped to the
canonical corner order via the fixed permutation {0,1,3,2,4,5,7,6}: file
corner i lands in canonical slot vertexOrder[i], so the canonical corner
list is [c0, c1, c3, c2, c4, c5, c7, c6]; the permutation swaps the
corner pairs (2,3) and (6,7) and fixes corners 0, 1, 4 and 5. -/
theorem C8_hexahedron_corner_permutation (cvi : Nat → Nat) :
    unswizzleCell cvi =
      [cvi 0, cvi 1, cvi 3, cvi 2, cvi 4, cvi 5, cvi 7, cvi 6] ∧
    vertexOrder.getD 2 0 = 3 ∧ vertexOrder.getD 3 0 = 2 ∧
    vertexOrder.getD 6 0 = 7 ∧ vertexOrder.getD 7 0 = 6 ∧
    vertexOrder.getD 0 0 = 0 ∧ vertexOrder.getD 1 0 = 1 ∧
    vertexOrder.getD 4 0 = 4 ∧ vertexOrder.getD 5 0 = 5 :=
  ⟨rfl, rfl, rfl, rfl, rfl, rfl, rfl, rfl, rfl⟩

/-! ### VTKFileReader count checks (C3) -/

/-- VTKFileReader::processPoints (lines 313-345): the vertex-position
DataArray must contribute exactly numVertices*3 components, else fatal
("Wrong number of vertices in DataArray element"). -/
def processPointsCheck (numVertices parsedComponents : Nat) :
    Except String Unit :=
  if parsedComponents ≠ numVertices * 3 then
    .error "Wrong number of vertices in DataArray element"
  else .ok ()

/-- VTKFileReader::processCells (lines 347-407) after both DataArrays
have been parsed: the declared-vs-actual count check for the
"connectivity" array is disabled in the source (an `#if 0` block at
lines 366-377), so the connectivity list's length is never compared with
the declared cell count; the "types" array is checked against numCells,
and every code must be 12 (linear hexahedron) or 72 (tri-quadratic
hexahedron). -/
def processCells (numCells : Nat) (connectivity : List Int)
    (types : List Nat) : Except String Unit :=
  if types.length ≠ numCells then
    .error "Wrong number of cells in types DataArray element"
  else if types.any (fun t => !(t == 12) && !(t == 72)) then
    .error "Non-hexahedral cell type in grid"
  else .ok ()

/-- VTKFileReader::processPointOrCellData count check (lines 431-435 and
478-482): fatal, naming the property, when a property DataArray's parsed
component count differs from numValues*numComponents. -/
def processPropertyCheck (name : String) (numValues numComponents : Nat)
    (parsedComponents : Nat) : Except String Unit :=
  if parsedComponents ≠ numValues * numComponents then
    .error ("Wrong number of values in DataArray element for property "
      ++ name)
  else .ok ()

/-- C3 counterexample: a "connectivity" DataArray holding five vertex
indices for a single declared cell (five matches neither 8 nor 27
entries per cell) is accepted by processCells without any error — the
declared-vs-actual count mismatch is not fatal for the connectivity
array, contradicting the claim that it is fatal for every array read. -/
theorem C3_counterexample :
    (5 : Nat) ≠ 1 * 8 ∧ (5 : Nat) ≠ 1 * 27 ∧
      processCells 1 [0, 1, 2, 3, 4] [12] = .ok () :=
  ⟨by decide, by decide, rfl⟩

/-- C3 amended: a declared-vs-actual element-count mismatch is fatal for
the vertex-position array, for the Cells element's "types" array, and
for every named vertex/cell property array (whose error message names
the property) — but the "connectivity" array's element count is not
checked at all: processCells accepts any connectivity length whenever
the types array is well-formed. -/
theorem C3_count_checks_amended :
    (∀ numVertices parsed, parsed ≠ numVertices * 3 →
      processPointsCheck numVertices parsed =
        .error "Wrong number of vertices in DataArray element") ∧
    (∀ numCells (connectivity : List Int) types,
      types.length ≠ numCells →
      processCells numCells connectivity types =
        .error "Wrong number of cells in types DataArray element") ∧
    (∀ name numValues numComponents parsed,
      parsed ≠ numValues * numComponents →
      processPropertyCheck name numValues numComponents parsed =
        .error ("Wrong number of values in DataArray element for property "
          ++ name)) ∧
    (∀ numCells (connectivity : List Int) types,
      types.length = numCells → (∀ t ∈ types, t = 12 ∨ t = 72) →
      processCells numCells connectivity types = .ok ()) := by
  refine ⟨?_, ?_, ?_, ?_⟩
  · intro numVertices parsed h
    unfold processPointsCheck
    rw [if_pos h]
  · intro numCells connectivity types h
    unfold processCells
    rw [if_pos h]
  · intro name numValues numComponents parsed h
    unfold processPropertyCheck
    rw [if_pos h]
  · intro numCells connectivity types hlen htypes
    unfold processCells
    rw [if_neg (by rw [hlen]; exact fun hc => hc rfl)]
    have hany : types.any (fun t => !(t == 12) && !(t == 72)) = false := by
      rw [List.any_eq_false]
      intro t ht
      rcases htypes t ht with rfl | rfl <;> decide
    rw [hany]
    rfl

theorem C3_count_checks_amended_witness :
    ((5 : Nat) ≠ 2 * 3 ∧
      processPointsCheck 2 5 =
        .error "Wrong number of vertices in DataArray element") ∧
    (([12, 12] : List Nat).length ≠ 1 ∧
      processCells 1 ([] : List Int) [12, 12] =
        .error "Wrong number of cells in types DataArray element") ∧
    ((7 : Nat) ≠ 2 * 3 ∧
      processPropertyCheck "T" 2 3 7 =
        .error ("Wrong number of values in DataArray element for property "
          ++ "T")) ∧
    (([12, 72] : List Nat).length = 2 ∧
      processCells 2 ([0, 1, 2] : List Int) [12, 72] = .ok ()) :=
  ⟨⟨by decide, C3_count_checks_amended.1 2 5 (by decide)⟩,
   ⟨by decide, C3_count_checks_amended.2.1 1 [] [12, 12] (by decide)⟩,
   ⟨by decide, C3_count_checks_amended.2.2.1 "T" 2 3 7 (by decide)⟩,
   ⟨by decide, C3_count_checks_amended.2.2.2 2 [0, 1, 2] [12, 72]
     (by decide) (by decide)⟩⟩

/-! ### VTKFileReader::processParallelUnstructuredGrid (C4, C5)

One reader thread per Piece element (readerThreadFunction, lines
636-665): read the piece file, build a VertexClusterer over its
vertices, and run createClusters with the scale-relative default
tolerance.  The coordinator joins every thread (lines 744-746), ANDs
their ok flags, merges all pieces sequentially in piece-list order when
every flag is set (lines 752-834), and otherwise throws a single
constant error (lines 843-845). -/

/-- The raw contents one piece-file reader holds after its
VTKFileReader::read() succeeds: grouped vertex positions, one flat
component list per declared vertex property (aligned with the
coordinator's shared vertexProperties list, since every piece reader is
configured with exactly that list), the cell type codes, the raw cell
vertex indices, and one flat component list per declared cell
property. -/
structure PieceData where
  pts : List Pt
  vertexPropComponents : List (List ℚ)
  cellTypes : List Nat
  cellVertexIndices : List Nat
  cellPropComponents : List (List ℚ)
deriving DecidableEq

instance : Inhabited PieceData := ⟨⟨[], [], [], [], []⟩⟩

/-- The largest absolute bounding-box coordinate of a point list: for a
nonempty list this is readerThreadFunction's maxDim, the fold of
Math::max over |bbox.min[i]| and |bbox.max[i]| for the box containing
all points. -/
def maxAbsCoord (pts : List Pt) : ℚ :=
  pts.foldl (fun m p => max m (max |p.x| (max |p.y| |p.z|))) 0

/-- readerThreadFunction's clustering stage: build the clusterer over
the piece's vertices and run createClusters with tolerance
maxDim * epsilon (epsilon, the scalar type's machine epsilon, is a fixed
positive constant of the scalar type and is kept as a parameter here).
The result is the piece's union-find state and its canonical vertex
count ta->numVertices. -/
def workerResult (eps : ℚ) (pd : PieceData) : CState × Nat :=
  createClusters pd.pts (maxAbsCoord pd.pts * eps)

/-- The per-piece witness-selected values of one vertex property with
`nc` components (lines 777-801): for each canonical vertex `vi`, the
`nc` consecutive components of its witness original vertex
getOriginalVertexIndex(vi). -/
def pieceVertexPropValues (eps : ℚ) (pd : PieceData) (nc : Nat)
    (comps : List ℚ) : List ℚ :=
  (List.range (workerResult eps pd).2).flatMap (fun vi =>
    (List.range nc).map (fun c =>
      comps.getD
        (getOriginalVertexIndex (workerResult eps pd).1 pd.pts.length vi
            * nc + c)
        0))

/-- The per-piece copied values of one cell property with `nc`
components (lines 815-831): the iterator ocIt walks the piece's
component list sequentially, numCells * nc entries in total, where
numCells is the piece's cell-type count. -/
def pieceCellPropValues (pd : PieceData) (nc : Nat) (comps : List ℚ) :
    List ℚ :=
  (List.range (pd.cellTypes.length * nc)).map (fun t => comps.getD t 0)

/-- The coordinator's accumulated global arrays. -/
structure MergedMesh where
  vertices : List Pt
  vertexProps : List (List ℚ)
  cellTypes : List Nat
  cellVertexIndices : List Nat
  cellProps : List (List ℚ)
deriving DecidableEq

/-- The sequential merge loop (lines 752-834), processing the pieces in
piece-list order with `base` the running baseIndex (the total canonical
vertex count of all earlier pieces): append the piece's merged vertex
positions, the witness-selected values of every vertex property, the
piece's cell types, its cell vertex indices translated into the shared
vertex space by base + getMergedVertexIndex, and the leading
numCells * numComponents values of every cell property. -/
def mergeLoop (eps : ℚ) (vShapes cShapes : List Nat) :
    List PieceData → Nat → MergedMesh
  | [], _ =>
      ⟨[], vShapes.map (fun _ => []), [], [], cShapes.map (fun _ => [])⟩
  | pd :: rest, base =>
      { vertices :=
          retrieveMergedVertices (workerResult eps pd).1 pd.pts.length ++
            (mergeLoop eps vShapes cShapes rest
              (base + (workerResult eps pd).2)).vertices
        vertexProps :=
          List.zipWith
            (fun sc tl => pieceVertexPropValues eps pd sc.1 sc.2 ++ tl)
            (vShapes.zip pd.vertexPropComponents)
            (mergeLoop eps vShapes cShapes rest
              (base + (workerResult eps pd).2)).vertexProps
        cellTypes :=
          pd.cellTypes ++
            (mergeLoop eps vShapes cShapes rest
              (base + (workerResult eps pd).2)).cellTypes
        cellVertexIndices :=
          pd.cellVertexIndices.map (fun cvi =>
            base + getMergedVertexIndex (workerResult eps pd).1 cvi) ++
            (mergeLoop eps vShapes cShapes rest
              (base + (workerResult eps pd).2)).cellVertexIndices
        cellProps :=
          List.zipWith
            (fun sc tl => pieceCellPropValues pd sc.1 sc.2 ++ tl)
            (cShapes.zip pd.cellPropComponents)
            (mergeLoop eps vShapes cShapes rest
              (base + (workerResult eps pd).2)).cellProps }

/-- processParallelUnstructuredGrid after every reader thread has been
joined (lines 744-746 join all threads unconditionally before any flag
is inspected).  Each entry of `pieces` pairs a piece URL with its
worker's outcome: `some` piece data when the worker set its ok flag,
`none` when it failed.  If every worker succeeded, the pieces are merged
in piece-list order starting at baseIndex 0; otherwise nothing is merged
and the single fixed error "Error while reading piece files" is thrown
(lines 843-845; Misc::makeStdErr prefixes the throwing function's
signature, which likewise names no piece). -/
def processParallelUnstructuredGrid (eps : ℚ) (vShapes cShapes : List Nat)
    (pieces : List (String × Option PieceData)) :
    Except String MergedMesh :=
  if pieces.all (fun w => w.2.isSome) then
    .ok (mergeLoop eps vShapes cShapes
      (pieces.filterMap (fun w => w.2)) 0)
  else
    .error "Error while reading piece files"

/-- The value of baseIndex when piece `i` is merged: the running total
of the canonical vertex counts of the pieces before it. -/
def baseIndexAt (eps : ℚ) (pds : List PieceData) (i : Nat) : Nat :=
  ((pds.take i).map (fun pd => (workerResult eps pd).2)).sum

/-- The block of shared-space cell vertex indices contributed by piece
`i`: its raw cell vertex indices, each sent to its per-piece canonical
index offset by the running total of the earlier pieces' canonical
vertex counts. -/
def pieceCellIndexBlock (eps : ℚ) (pds : List PieceData) (i : Nat) :
    List Nat :=
  (pds.getD i default).cellVertexIndices.map (fun cvi =>
    baseIndexAt eps pds i +
      getMergedVertexIndex (workerResult eps (pds.getD i default)).1 cvi)

theorem mergeLoop_nil (eps : ℚ) (v c : List Nat) (base : Nat) :
    mergeLoop eps v c [] base =
      ⟨[], v.map (fun _ => []), [], [], c.map (fun _ => [])⟩ := rfl

theorem mergeLoop_cons (eps : ℚ) (v c : List Nat) (pd : PieceData)
    (rest : List PieceData) (base : Nat) :
    mergeLoop eps v c (pd :: rest) base =
      { vertices :=
          retrieveMergedVertices (workerResult eps pd).1 pd.pts.length ++
            (mergeLoop eps v c rest (base + (workerResult eps pd).2)).vertices
        vertexProps :=
          List.zipWith
            (fun sc tl => pieceVertexPropValues eps pd sc.1 sc.2 ++ tl)
            (v.zip pd.vertexPropComponents)
            (mergeLoop eps v c rest
              (base + (workerResult eps pd).2)).vertexProps
        cellTypes :=
          pd.cellTypes ++
            (mergeLoop eps v c rest (base + (workerResult eps pd).2)).cellTypes
        cellVertexIndices :=
          pd.cellVertexIndices.map (fun cvi =>
            base + getMergedVertexIndex (workerResult eps pd).1 cvi) ++
            (mergeLoop eps v c rest
              (base + (workerResult eps pd).2)).cellVertexIndices
        cellProps :=
          List.zipWith
            (fun sc tl => pieceCellPropValues pd sc.1 sc.2 ++ tl)
            (c.zip pd.cellPropComponents)
            (mergeLoop eps v c rest
              (base + (workerResult eps pd).2)).cellProps } := rfl

theorem mergeLoop_vertices (eps : ℚ) (v c : List Nat)
    (pds : List PieceData) : ∀ base,
    (mergeLoop eps v c pds base).vertices =
      pds.flatMap (fun pd =>
        retrieveMergedVertices (workerResult eps pd).1 pd.pts.length) := by
  induction pds with
  | nil => intro base; rfl
  | cons pd rest ih =>
    intro base
    rw [mergeLoop_cons]
    dsimp only
    rw [ih (base + (workerResult eps pd).2), List.flatMap_cons]

theorem mergeLoop_cellTypes (eps : ℚ) (v c : List Nat)
    (pds : List PieceData) : ∀ base,
    (mergeLoop eps v c pds base).cellTypes =
      pds.flatMap (fun pd => pd.cellTypes) := by
  induction pds with
  | nil => intro base; rfl
  | cons pd rest ih =>
    intro base
    rw [mergeLoop_cons]
    dsimp only
    rw [ih (base + (workerResult eps pd).2), List.flatMap_cons]

theorem baseIndexAt_zero (eps : ℚ) (pds : List PieceData) :
    baseIndexAt eps pds 0 = 0 := rfl

theorem baseIndexAt_cons (eps : ℚ) (pd : PieceData)
    (rest : List PieceData) (i : Nat) :
    baseIndexAt eps (pd :: rest) (i + 1) =
      (workerResult eps pd).2 + baseIndexAt eps rest i := by
  unfold baseIndexAt
  rw [List.take_succ_cons, List.map_cons, List.sum_cons]

theorem mergeLoop_cvis (eps : ℚ) (v c : List Nat)
    (pds : List PieceData) : ∀ base,
    (mergeLoop eps v c pds base).cellVertexIndices =
      (List.range pds.length).flatMap (fun i =>
        (pds.getD i default).cellVertexIndices.map (fun cvi =>
          base + baseIndexAt eps pds i +
            getMergedVertexIndex
              (workerResult eps (pds.getD i default)).1 cvi)) := by
  induction pds with
  | nil => intro base; rfl
  | cons pd rest ih =>
    intro base
    rw [mergeLoop_cons]
    dsimp only
    rw [ih (base + (workerResult eps pd).2),
      show (pd :: rest).length = rest.length + 1 from rfl,
      List.range_succ_eq_map, List.flatMap_cons, List.flatMap_map]
    congr 1
    congr 1
    funext i
    dsimp only
    rw [List.getD_cons_succ, baseIndexAt_cons]
    congr 1
    funext cvi
    omega

theorem zipWith_getD {α β γ : Type} (f : α → β → γ) (da : α) (db : β)
    (dc : γ) :
    ∀ (as : List α) (bs : List β) (p : Nat), p < as.length →
      p < bs.length →
      (List.zipWith f as bs).getD p dc = f (as.getD p da) (bs.getD p db)
  | [], _, _, ha, _ => absurd ha (Nat.not_lt_zero _)
  | _ :: _, [], _, _, hb => absurd hb (Nat.not_lt_zero _)
  | _ :: _, _ :: _, 0, _, _ => rfl
  | _ :: as, _ :: bs, p + 1, ha, hb =>
      zipWith_getD f da db dc as bs p (Nat.lt_of_succ_lt_succ ha)
        (Nat.lt_of_succ_lt_succ hb)

theorem zip_getD {α β : Type} (da : α) (db : β) :
    ∀ (as : List α) (bs : List β) (p : Nat), p < as.length →
      p < bs.length →
      (as.zip bs).getD p (da, db) = (as.getD p da, bs.getD p db)
  | [], _, _, ha, _ => absurd ha (Nat.not_lt_zero _)
  | _ :: _, [], _, _, hb => absurd hb (Nat.not_lt_zero _)
  | _ :: _, _ :: _, 0, _, _ => rfl
  | _ :: as, _ :: bs, p + 1, ha, hb =>
      zip_getD da db as bs p (Nat.lt_of_succ_lt_succ ha)
        (Nat.lt_of_succ_lt_succ hb)

theorem mergeLoop_vertexProps_length (eps : ℚ) (v c : List Nat)
    (pds : List PieceData)
    (hlen : ∀ pd ∈ pds, pd.vertexPropComponents.length = v.length) :
    ∀ base, (mergeLoop eps v c pds base).vertexProps.length = v.length := by
  induction pds with
  | nil => intro base; rw [mergeLoop_nil]; exact List.length_map _ _
  | cons pd rest ih =>
    intro base
    rw [mergeLoop_cons]
    dsimp only
    rw [List.length_zipWith, List.length_zip, hlen pd (List.Mem.head _),
      ih (fun q hq => hlen q (List.Mem.tail _ hq))
        (base + (workerResult eps pd).2)]
    simp

theorem mergeLoop_cellProps_length (eps : ℚ) (v c : List Nat)
    (pds : List PieceData)
    (hlen : ∀ pd ∈ pds, pd.cellPropComponents.length = c.length) :
    ∀ base, (mergeLoop eps v c pds base).cellProps.length = c.length := by
  induction pds with
  | nil => intro base; rw [mergeLoop_nil]; exact List.length_map _ _
  | cons pd rest ih =>
    intro base
    rw [mergeLoop_cons]
    dsimp only
    rw [List.length_zipWith, List.length_zip, hlen pd (List.Mem.head _),
      ih (fun q hq => hlen q (List.Mem.tail _ hq))
        (base + (workerResult eps pd).2)]
    simp

theorem mergeLoop_vertexProps (eps : ℚ) (v c : List Nat)
    (pds : List PieceData)
    (hlen : ∀ pd ∈ pds, pd.vertexPropComponents.length = v.length)
    {p : Nat} (hp : p < v.length) :
    ∀ base, (mergeLoop eps v c pds base).vertexProps.getD p [] =
      pds.flatMap (fun pd =>
        pieceVertexPropValues eps pd (v.getD p 0)
          (pd.vertexPropComponents.getD p [])) := by
  induction pds with
  | nil =>
    intro base
    rw [mergeLoop_nil]
    dsimp only
    have hp' : p < (v.map (fun _ => ([] : List ℚ))).length := by
      rw [List.length_map]; exact hp
    rw [List.getD_eq_getElem _ _ hp', List.getElem_map]
    rfl
  | cons pd rest ih =>
    intro base
    rw [mergeLoop_cons]
    dsimp only
    have h1 : p < (v.zip pd.vertexPropComponents).length := by
      rw [List.length_zip, hlen pd (List.Mem.head _), Nat.min_self]
      exact hp
    have h2 : p < (mergeLoop eps v c rest
        (base + (workerResult eps pd).2)).vertexProps.length := by
      rw [mergeLoop_vertexProps_length eps v c rest
        (fun q hq => hlen q (List.Mem.tail _ hq))
        (base + (workerResult eps pd).2)]
      exact hp
    rw [zipWith_getD _ (0, ([] : List ℚ)) ([] : List ℚ) ([] : List ℚ)
        _ _ p h1 h2,
      zip_getD 0 ([] : List ℚ) v pd.vertexPropComponents p hp
        (by rw [hlen pd (List.Mem.head _)]; exact hp)]
    dsimp only
    rw [ih (fun q hq => hlen q (List.Mem.tail _ hq))
        (base + (workerResult eps pd).2),
      List.flatMap_cons]

theorem mergeLoop_cellProps (eps : ℚ) (v c : List Nat)
    (pds : List PieceData)
    (hlen : ∀ pd ∈ pds, pd.cellPropComponents.length = c.length)
    {p : Nat} (hp : p < c.length) :
    ∀ base, (mergeLoop eps v c pds base).cellProps.getD p [] =
      pds.flatMap (fun pd =>
        pieceCellPropValues pd (c.getD p 0)
          (pd.cellPropComponents.getD p [])) := by
  induction pds with
  | nil =>
    intro base
    rw [mergeLoop_nil]
    dsimp only
    have hp' : p < (c.map (fun _ => ([] : List ℚ))).length := by
      rw [List.length_map]; exact hp
    rw [List.getD_eq_getElem _ _ hp', List.getElem_map]
    rfl
  | cons pd rest ih =>
    intro base
    rw [mergeLoop_cons]
    dsimp only
    have h1 : p < (c.zip pd.cellPropComponents).length := by
      rw [List.length_zip, hlen pd (List.Mem.head _), Nat.min_self]
      exact hp
    have h2 : p < (mergeLoop eps v c rest
        (base + (workerResult eps pd).2)).cellProps.length := by
      rw [mergeLoop_cellProps_length eps v c rest
        (fun q hq => hlen q (List.Mem.tail _ hq))
        (base + (workerResult eps pd).2)]
      exact hp
    rw [zipWith_getD _ (0, ([] : List ℚ)) ([] : List ℚ) ([] : List ℚ)
        _ _ p h1 h2,
      zip_getD 0 ([] : List ℚ) c pd.cellPropComponents p hp
        (by rw [hlen pd (List.Mem.head _)]; exact hp)]
    dsimp only
    rw [ih (fun q hq => hlen q (List.Mem.tail _ hq))
        (base + (workerResult eps pd).2),
      List.flatMap_cons]

theorem baseIndexAt_succ (eps : ℚ) (pds : List PieceData) {i : Nat}
    (hi : i < pds.length) :
    baseIndexAt eps pds (i + 1) =
      baseIndexAt eps pds i +
        (workerResult eps (pds.getD i default)).2 := by
  unfold baseIndexAt
  rw [List.take_succ, List.map_append, List.sum_append]
  congr 1
  rw [List.getElem?_eq_getElem hi, List.getD_eq_getElem _ _ hi]
  simp

theorem baseIndexAt_le_succ (eps : ℚ) (pds : List PieceData) (i : Nat) :
    baseIndexAt eps pds i ≤ baseIndexAt eps pds (i + 1) := by
  unfold baseIndexAt
  rw [List.map_take, List.map_take]
  exact List.Sublist.sum_le_sum
    ((List.take_prefix_take_left _ (Nat.le_succ i)).sublist) (by simp)

theorem baseIndexAt_mono (eps : ℚ) (pds : List PieceData) {i j : Nat}
    (hij : i ≤ j) : baseIndexAt eps pds i ≤ baseIndexAt eps pds j := by
  obtain ⟨d, rfl⟩ := Nat.exists_eq_add_of_le hij
  clear hij
  induction d with
  | zero => exact le_refl _
  | succ d ihd => exact le_trans ihd (baseIndexAt_le_succ eps pds (i + d))

theorem pieceCellIndexBlock_bounds (eps : ℚ) (pds : List PieceData)
    (hraw : ∀ pd ∈ pds, ∀ cvi ∈ pd.cellVertexIndices,
      cvi < pd.pts.length)
    {i : Nat} (hi : i < pds.length) :
    ∀ y ∈ pieceCellIndexBlock eps pds i,
      baseIndexAt eps pds i ≤ y ∧ y < baseIndexAt eps pds (i + 1) := by
  intro y hy
  unfold pieceCellIndexBlock at hy
  rw [List.mem_map] at hy
  obtain ⟨cvi, hcvi, rfl⟩ := hy
  refine ⟨Nat.le_add_right _ _, ?_⟩
  rw [baseIndexAt_succ eps pds hi]
  have hmem : pds.getD i default ∈ pds := by
    rw [List.getD_eq_getElem _ _ hi]
    exact List.getElem_mem _
  have hlt : cvi < (pds.getD i default).pts.length :=
    hraw _ hmem cvi hcvi
  exact Nat.add_lt_add_left (createClusters_gmvi_lt _ _ hlt) _

theorem pieceCellIndexBlock_disjoint (eps : ℚ) (pds : List PieceData)
    (hraw : ∀ pd ∈ pds, ∀ cvi ∈ pd.cellVertexIndices,
      cvi < pd.pts.length)
    {i j : Nat} (hij : i < j) (hj : j < pds.length) :
    ∀ y ∈ pieceCellIndexBlock eps pds i,
      ∀ z ∈ pieceCellIndexBlock eps pds j, y ≠ z := by
  intro y hy z hz
  have hi : i < pds.length := lt_trans hij hj
  have h1 := (pieceCellIndexBlock_bounds eps pds hraw hi y hy).2
  have h2 := (pieceCellIndexBlock_bounds eps pds hraw hj z hz).1
  have h3 : baseIndexAt eps pds (i + 1) ≤ baseIndexAt eps pds j :=
    baseIndexAt_mono eps pds hij
  omega

/-- C4: for a multi-piece document whose workers all succeed, the merge
runs in piece-list order (the source joins every worker thread before
the sequential merge loop, so the loop order — piece-list order, not
completion order — is the only order in which pieces are ever merged):
the global vertex array is the concatenation of the per-piece merged
vertex positions; the global cell types are a straight concatenation;
the global cell vertex index array decomposes into per-piece blocks, the
block of piece i being its raw indices sent through its own clusterer
and offset by the running total of the earlier pieces' canonical
counts; every shared vertex property is the concatenation of the
per-piece witness-selected values, and every shared cell property a
straight concatenation of the per-piece leading numCells*numComponents
values; each block's entries lie in the piece's own canonical index
window [baseIndexAt i, baseIndexAt i + numVertices i), and entries of
different pieces' blocks are never equal — clustering never merges
vertices across piece boundaries.  Hypotheses: every piece reader holds
one component list per shared property (the coordinator configures each
reader with exactly the shared property lists), and every raw cell
vertex index is in range of its piece's vertex array. -/
theorem C4_parallel_merge (eps : ℚ) (vShapes cShapes : List Nat)
    (pds : List PieceData)
    (hlenV : ∀ pd ∈ pds, pd.vertexPropComponents.length = vShapes.length)
    (hlenC : ∀ pd ∈ pds, pd.cellPropComponents.length = cShapes.length)
    (hraw : ∀ pd ∈ pds, ∀ cvi ∈ pd.cellVertexIndices,
      cvi < pd.pts.length) :
    (mergeLoop eps vShapes cShapes pds 0).vertices =
      pds.flatMap (fun pd =>
        retrieveMergedVertices (workerResult eps pd).1 pd.pts.length) ∧
    (mergeLoop eps vShapes cShapes pds 0).cellTypes =
      pds.flatMap (fun pd => pd.cellTypes) ∧
    (mergeLoop eps vShapes cShapes pds 0).cellVertexIndices =
      (List.range pds.length).flatMap (pieceCellIndexBlock eps pds) ∧
    (∀ p, p < vShapes.length →
      (mergeLoop eps vShapes cShapes pds 0).vertexProps.getD p [] =
        pds.flatMap (fun pd =>
          pieceVertexPropValues eps pd (vShapes.getD p 0)
            (pd.vertexPropComponents.getD p []))) ∧
    (∀ p, p < cShapes.length →
      (mergeLoop eps vShapes cShapes pds 0).cellProps.getD p [] =
        pds.flatMap (fun pd =>
          pieceCellPropValues pd (cShapes.getD p 0)
            (pd.cellPropComponents.getD p []))) ∧
    (∀ i, i < pds.length →
      baseIndexAt eps pds (i + 1) =
        baseIndexAt eps pds i +
          (workerResult eps (pds.getD i default)).2 ∧
      ∀ y ∈ pieceCellIndexBlock eps pds i,
        baseIndexAt eps pds i ≤ y ∧ y < baseIndexAt eps pds (i + 1)) ∧
    (∀ i j, i < j → j < pds.length →
      ∀ y ∈ pieceCellIndexBlock eps pds i,
        ∀ z ∈ pieceCellIndexBlock eps pds j, y ≠ z) := by
  refine ⟨mergeLoop_vertices eps vShapes cShapes pds 0,
    mergeLoop_cellTypes eps vShapes cShapes pds 0, ?_,
    fun p hp => mergeLoop_vertexProps eps vShapes cShapes pds hlenV hp 0,
    fun p hp => mergeLoop_cellProps eps vShapes cShapes pds hlenC hp 0,
    fun i hi => ⟨baseIndexAt_succ eps pds hi,
      pieceCellIndexBlock_bounds eps pds hraw hi⟩,
    fun i j hij hj => pieceCellIndexBlock_disjoint eps pds hraw hij hj⟩
  rw [mergeLoop_cvis eps vShapes cShapes pds 0]
  congr 1
  funext i
  unfold pieceCellIndexBlock
  congr 1
  funext cvi
  omega

/-- Two small pieces for exercising the parallel merge: one point each,
one hexahedral cell each, no shared properties. -/
def pieceA : PieceData := ⟨[⟨0, 0, 0⟩], [], [12], [0, 0], []⟩

def pieceB : PieceData := ⟨[⟨5, 5, 5⟩], [], [12], [0], []⟩

def piecesW : List PieceData := [pieceA, pieceB]

theorem C4_parallel_merge_witness :
    ((∀ pd ∈ piecesW, pd.vertexPropComponents.length =
        ([] : List Nat).length) ∧
      (∀ pd ∈ piecesW, pd.cellPropComponents.length =
        ([] : List Nat).length) ∧
      (∀ pd ∈ piecesW, ∀ cvi ∈ pd.cellVertexIndices,
        cvi < pd.pts.length)) ∧
    ((mergeLoop 1 [] [] piecesW 0).vertices =
      piecesW.flatMap (fun pd =>
        retrieveMergedVertices (workerResult 1 pd).1 pd.pts.length) ∧
    (mergeLoop 1 [] [] piecesW 0).cellTypes =
      piecesW.flatMap (fun pd => pd.cellTypes) ∧
    (mergeLoop 1 [] [] piecesW 0).cellVertexIndices =
      (List.range piecesW.length).flatMap (pieceCellIndexBlock 1 piecesW) ∧
    (∀ p, p < ([] : List Nat).length →
      (mergeLoop 1 [] [] piecesW 0).vertexProps.getD p [] =
        piecesW.flatMap (fun pd =>
          pieceVertexPropValues 1 pd (([] : List Nat).getD p 0)
            (pd.vertexPropComponents.getD p []))) ∧
    (∀ p, p < ([] : List Nat).length →
      (mergeLoop 1 [] [] piecesW 0).cellProps.getD p [] =
        piecesW.flatMap (fun pd =>
          pieceCellPropValues pd (([] : List Nat).getD p 0)
            (pd.cellPropComponents.getD p []))) ∧
    (∀ i, i < piecesW.length →
      baseIndexAt 1 piecesW (i + 1) =
        baseIndexAt 1 piecesW i +
          (workerResult 1 (piecesW.getD i default)).2 ∧
      ∀ y ∈ pieceCellIndexBlock 1 piecesW i,
        baseIndexAt 1 piecesW i ≤ y ∧ y < baseIndexAt 1 piecesW (i + 1)) ∧
    (∀ i j, i < j → j < piecesW.length →
      ∀ y ∈ pieceCellIndexBlock 1 piecesW i,
        ∀ z ∈ pieceCellIndexBlock 1 piecesW j, y ≠ z)) :=
  ⟨⟨by decide, by decide, by decide⟩,
    C4_parallel_merge 1 [] [] piecesW (by decide) (by decide) (by decide)⟩

/-- C5 counterexample: with two pieces of which the first worker failed,
the coordinator raises the fixed message "Error while reading piece
files"; the failing piece's URL "alpha.vtu" does not occur anywhere in
that message, so the aggregate error does not name the failing
piece(s). -/
theorem C5_counterexample :
    processParallelUnstructuredGrid 1 [] []
        [("alpha.vtu", none), ("beta.vtu", some default)] =
      .error "Error while reading piece files" ∧
    ¬ "alpha.vtu".data <:+: "Error while reading piece files".data :=
  ⟨rfl, by decide⟩

/-- C5 amended: when at least one piece worker fails, the coordinator —
which has already joined every sibling worker thread before inspecting
any ok flag — raises one aggregate error whose message is the fixed
constant "Error while reading piece files" (independent of which or how
many pieces failed, and naming no piece), and no mesh, partial or
otherwise, is ever returned. -/
theorem C5_aggregate_error (eps : ℚ) (vShapes cShapes : List Nat)
    (pieces : List (String × Option PieceData))
    (h : ∃ w ∈ pieces, w.2 = none) :
    processParallelUnstructuredGrid eps vShapes cShapes pieces =
        .error "Error while reading piece files" ∧
      ∀ mesh, processParallelUnstructuredGrid eps vShapes cShapes pieces ≠
        .ok mesh := by
  have hall : pieces.all (fun w => w.2.isSome) = false := by
    obtain ⟨w, hw, hnone⟩ := h
    rw [List.all_eq_false]
    exact ⟨w, hw, by rw [hnone]; decide⟩
  have hres : processParallelUnstructuredGrid eps vShapes cShapes pieces =
      .error "Error while reading piece files" := by
    unfold processParallelUnstructuredGrid
    rw [hall]
    rfl
  exact ⟨hres, fun mesh hmesh => by
    rw [hres] at hmesh
    exact Except.noConfusion hmesh⟩

theorem C5_aggregate_error_witness :
    (∃ w ∈ [("piece1.vtu", (none : Option PieceData))], w.2 = none) ∧
    (processParallelUnstructuredGrid 1 [] []
        [("piece1.vtu", (none : Option PieceData))] =
      .error "Error while reading piece files" ∧
    ∀ mesh, processParallelUnstructuredGrid 1 [] []
        [("piece1.vtu", (none : Option PieceData))] ≠ .ok mesh) :=
  ⟨⟨("piece1.vtu", none), List.Mem.head _, rfl⟩,
    C5_aggregate_error 1 [] [] [("piece1.vtu", none)]
      ⟨("piece1.vtu", none), List.Mem.head _, rfl⟩⟩

end VTKProof
